import Mathlib

/-!
# KeyStoreCache (2-race-in-cache/main.go)

A shallow embedding of the LRU cache of `2-race-in-cache/main.go` and the
properties of it that are checked against the specification.

Go values are embedded as follows.

* `container/list`: a list is the sequence of its elements, front first.  An
  element is its identity (`addr`, the address it was allocated at) together
  with the `Value` it holds.  The program never reassigns the `Value` of an
  element after `PushFront`, so a `*list.Element` is embedded as the element
  itself and `nil` as `none`.
* `map[string]*list.Element`: an association list in which no key occurs twice.
* `chan *list.List` of capacity one: a Boolean that tells whether the slot
  holds the pointer to the list made by `New`.  The list it points to lives on
  the heap (`KeyStoreCache.list`), in the channel or out of it.
* The loader `k.load` is a function of the key: `load key` is `.ok v` when the
  call returns `v` and `.error err` when it panics with `err`.
* A call either returns, panics or blocks for ever (`Outcome`); the keys the
  loader was called with are recorded next to the outcome (`Run.loads`).
* `Get.traced` and `PageLength.traced` are `Get` and `PageLength` with the
  receives, the sends and the calls of the loader they make, in order.
* Goroutines that call `Get` at the same time are a `World`: each is before its
  receive, in the loader, or done, and `World.step` moves one of them from one
  of these points to the next (`Get.enter`, `Get.leave`, the two halves of `Get`).
-/

namespace KeyStore

/-- CacheSize determines how big the cache can grow. -/
def CacheSize : Nat := 100

/-- The struct `page`. -/
structure page where
  Key : String
  Value : String
deriving DecidableEq, Repr

/-- The dynamic values (`any`) an element of a `list.List` may hold. -/
inductive GoValue where
  | ofPage (p : page)
  | nil
deriving DecidableEq, Repr

/-- The type assertion `v.(page)`: `none` when it panics. -/
def GoValue.assertPage : GoValue → Option page
  | .ofPage p => some p
  | .nil => none

/-- A `list.Element`: its identity and the value stored in it. -/
structure Element where
  addr : Nat
  Value : GoValue
deriving DecidableEq, Repr

/-! ## container/list -/

/-- The method `(*List).Len`. -/
def Len (l : List Element) : Nat := l.length

/-- The method `(*List).Front`: the first element, or nil. -/
def Front (l : List Element) : Option Element := l.head?

/-- The method `(*List).Back`: the last element, or nil. -/
def Back (l : List Element) : Option Element := l.getLast?

/-- The method `(*List).PushFront`, which allocates the new element at `addr`. -/
def PushFront (l : List Element) (addr : Nat) (v : GoValue) : List Element :=
  { addr := addr, Value := v } :: l

/-- The method `(*List).Remove`: unlinks `e` when it is an element of the list. -/
def Remove (l : List Element) (e : Element) : List Element :=
  l.eraseP (fun x => x.addr == e.addr)

/-- The method `(*List).MoveToFront`: nothing happens when `e` is not an element of
the list; otherwise `e` is unlinked and linked again before the first element. -/
def MoveToFront (l : List Element) (e : Element) : List Element :=
  match l.find? (fun x => x.addr == e.addr) with
  | none => l
  | some x => x :: l.eraseP (fun y => y.addr == e.addr)

/-! ## map[string]*list.Element -/

/-- The lookup `e, ok := m[key]`: `none` when `ok` is false. -/
def mapGet (m : List (String × Option Element)) (key : String) : Option (Option Element) :=
  m.lookup key

/-- The builtin `delete(m, key)`. -/
def mapDelete (m : List (String × Option Element)) (key : String) :
    List (String × Option Element) :=
  m.filter (fun kv => kv.1 != key)

/-- The assignment `m[key] = e`. -/
def mapSet (m : List (String × Option Element)) (key : String) (e : Option Element) :
    List (String × Option Element) :=
  (key, e) :: mapDelete m key

/-- The builtin `len(m)`. -/
def mapLen (m : List (String × Option Element)) : Nat := m.length

/-! ## KeyStoreCache -/

/-- KeyStoreCache is a LRU cache for string key-value pairs.  `load key` is
`.error err` when the call `k.load(key)` panics with `err`.  The fields `list`
and `next` are the heap: the `list.List` allocated by `New`, to which the
pointer travelling through `pages` refers, and the address of the next
`list.Element` to be allocated. -/
structure KeyStoreCache where
  cache : List (String × Option Element)
  pages : Bool
  load : String → Except String String
  list : List Element
  next : Nat

/-- How a call ends: it returns `v`, it panics with `err`, or it blocks for ever.
Each carries the state the call leaves behind. -/
inductive Outcome (α : Type) where
  | returned (v : α) (k : KeyStoreCache)
  | panicked (err : String) (k : KeyStoreCache)
  | blocked (k : KeyStoreCache)

/-- A finished call: its outcome and the keys `k.load` was called with, in order. -/
structure Run (α : Type) where
  outcome : Outcome α
  loads : List String

/-- The panic of dereferencing a nil pointer. -/
def nilDereference : String := "invalid memory address or nil pointer dereference"

/-- The panic of a failed type assertion `.(page)`. -/
def notAPage : String := "interface conversion: interface {} is not main.page"

/-- The receive `pages := <-k.pages`: `none` when the channel is empty and the
receive blocks. -/
def recv (k : KeyStoreCache) : Option KeyStoreCache :=
  if k.pages then some { k with pages := false } else none

/-- The send `k.pages <- pages`: `none` when the slot is taken and the send blocks. -/
def send (k : KeyStoreCache) : Option KeyStoreCache :=
  if k.pages then none else some { k with pages := true }

/-- The function `Loader.Load` over the `Get` of its database: it panics with the
error of the database, if there is one. -/
def Loader.Load (DBGet : String → Except String String) (key : String) :
    Except String String :=
  match DBGet key with
  | .error err => .error err
  | .ok val => .ok val

/-- New creates a new KeyStoreCache. -/
def New (load : String → Except String String) : KeyStoreCache :=
  { load := load, cache := [], pages := true, list := [], next := 0 }

/-- The method `PageLength`. -/
def PageLength (k : KeyStoreCache) : Run Nat :=
  match recv k with
  | none => ⟨.blocked k, []⟩
  | some k1 =>
    let length := Len k1.list
    match send k1 with
    | none => ⟨.blocked k1, []⟩
    | some k2 => ⟨.returned length k2, []⟩

/-- The two early exits of `Get`, lines 65-66 and 72-73: send the list back, then
return `e.Value.(page).Value`. -/
def Get.found (k : KeyStoreCache) (e : Option Element) : Run String :=
  match send k with
  | none => ⟨.blocked k, []⟩
  | some k1 =>
    match e with
    | none => ⟨.panicked nilDereference k1, []⟩
    | some e =>
      match e.Value.assertPage with
      | none => ⟨.panicked notAPage k1, []⟩
      | some p => ⟨.returned p.Value k1, []⟩

/-- The end of `Get`, lines 85-88: push the page to the front, index it, send the
list back and return the loaded value. -/
def Get.store (k : KeyStoreCache) (key : String) (p : page) : Run String :=
  let k1 := { k with list := PushFront k.list k.next (.ofPage p), next := k.next + 1 }
  let k2 := { k1 with cache := mapSet k1.cache key (Front k1.list) }
  match send k2 with
  | none => ⟨.blocked k2, [key]⟩
  | some k3 => ⟨.returned p.Value k3, [key]⟩

/-- Get gets the key from cache, loads it from the source if needed. -/
def Get (k : KeyStoreCache) (key : String) : Run String :=
  match recv k with
  | none => ⟨.blocked k, []⟩
  | some k1 =>
    match mapGet k1.cache key with
    | some e =>
      match e with
      | none => ⟨.panicked nilDereference k1, []⟩
      | some x => Get.found { k1 with list := MoveToFront k1.list x } e
    | none =>
      match mapGet k1.cache key with
      | some e => Get.found k1 e
      | none =>
        match k1.load key with
        | .error err => ⟨.panicked err k1, [key]⟩
        | .ok v =>
          let p : page := { Key := key, Value := v }
          if CacheSize ≤ mapLen k1.cache then
            match Back k1.list with
            | none => ⟨.panicked nilDereference k1, [key]⟩
            | some last =>
              match last.Value.assertPage with
              | none => ⟨.panicked notAPage k1, [key]⟩
              | some q =>
                Get.store { k1 with cache := mapDelete k1.cache q.Key,
                                    list := Remove k1.list last } key p
          else Get.store k1 key p

/-- The method `Get` with the constant `CacheSize` as a parameter: the body of `Get`
with `size` where the source has `CacheSize`. -/
def Get.withSize (size : Nat) (k : KeyStoreCache) (key : String) : Run String :=
  match recv k with
  | none => ⟨.blocked k, []⟩
  | some k1 =>
    match mapGet k1.cache key with
    | some e =>
      match e with
      | none => ⟨.panicked nilDereference k1, []⟩
      | some x => Get.found { k1 with list := MoveToFront k1.list x } e
    | none =>
      match mapGet k1.cache key with
      | some e => Get.found k1 e
      | none =>
        match k1.load key with
        | .error err => ⟨.panicked err k1, [key]⟩
        | .ok v =>
          let p : page := { Key := key, Value := v }
          if size ≤ mapLen k1.cache then
            match Back k1.list with
            | none => ⟨.panicked nilDereference k1, [key]⟩
            | some last =>
              match last.Value.assertPage with
              | none => ⟨.panicked notAPage k1, [key]⟩
              | some q =>
                Get.store { k1 with cache := mapDelete k1.cache q.Key,
                                    list := Remove k1.list last } key p
          else Get.store k1 key p

/-- The state a returning `Get` leaves and the value it returns; `none` when the
call does not return. -/
def getReturn (k : KeyStoreCache) (key : String) : Option (String × KeyStoreCache) :=
  match (Get k key).outcome with
  | .returned v k1 => some (v, k1)
  | _ => none

/-- One `Get` after the other, each on the state the one before left: the values
returned, in order, and the final state; `none` when a call does not return. -/
def GetAll (k : KeyStoreCache) : List String → Option (List String × KeyStoreCache)
  | [] => some ([], k)
  | key :: rest =>
    match getReturn k key with
    | none => none
    | some (v, k1) =>
      match GetAll k1 rest with
      | none => none
      | some (vs, k2) => some (v :: vs, k2)

/-- The states of a program that made a `KeyStoreCache` with `New load` and then
called `Get` and `PageLength` on it, each call having returned.  The program does not
recover from a panic, which ends the run: no state follows a call that panics. -/
inductive Reachable (load : String → Except String String) : KeyStoreCache → Prop where
  | new : Reachable load (New load)
  | get {k k1 : KeyStoreCache} {key v : String} :
      Reachable load k → (Get k key).outcome = .returned v k1 → Reachable load k1
  | pageLength {k k1 : KeyStoreCache} {n : Nat} :
      Reachable load k → (PageLength k).outcome = .returned n k1 → Reachable load k1

/-- A database that has a value for every key. -/
def echoDB : String → Except String String := fun key => .ok ("value of " ++ key)

/-- A database that fails for the key "x" and has a value for every other key. -/
def failingDB : String → Except String String :=
  fun key => if key = "x" then .error "no x" else .ok ("value of " ++ key)

/-- The loader of a database that answers every key. -/
def echoLoad : String → Except String String := Loader.Load echoDB

/-- The loader of a database that fails for the key "x": its load panics for "x". -/
def failX : String → Except String String := Loader.Load failingDB

/-- The cache after the calls `Get("a")`, `Get("b")`, `Get("a")`, `Get("c")` on
`New echoLoad`. -/
def abac : KeyStoreCache :=
  { cache := [("c", some ⟨2, .ofPage ⟨"c", "value of c"⟩⟩),
              ("b", some ⟨1, .ofPage ⟨"b", "value of b"⟩⟩),
              ("a", some ⟨0, .ofPage ⟨"a", "value of a"⟩⟩)]
    pages := true
    load := echoLoad
    list := [⟨2, .ofPage ⟨"c", "value of c"⟩⟩, ⟨0, .ofPage ⟨"a", "value of a"⟩⟩,
             ⟨1, .ofPage ⟨"b", "value of b"⟩⟩]
    next := 3 }

/-- The cache after `Get("x")` on `New failX`, whose load panics. -/
def afterFailure : KeyStoreCache :=
  { cache := [], pages := false, load := failX, list := [], next := 0 }

/-- The cache after `Get("a")` on `New failX`: one entry, and a loader that fails for
"x". -/
def afterA : KeyStoreCache :=
  { cache := [("a", some ⟨0, .ofPage ⟨"a", "value of a"⟩⟩)]
    pages := true
    load := failX
    list := [⟨0, .ofPage ⟨"a", "value of a"⟩⟩]
    next := 1 }

/-- The key of the page an element holds (the empty string when it holds no page). -/
def keyOf (e : Element) : String :=
  match e.Value with
  | .ofPage p => p.Key
  | .nil => ""

/-- The entry of the index that points to the element `e`. -/
def entryOf (e : Element) : String × Option Element := (keyOf e, some e)

/-- The keys of the index. -/
def keys (k : KeyStoreCache) : List String := k.cache.map Prod.fst

/-- The keys of the pages of the recency list, front first. -/
def order (k : KeyStoreCache) : List String := k.list.map keyOf

/-- The invariant of the cache between two calls. -/
structure Inv (load : String → Except String String) (k : KeyStoreCache) : Prop where
  token : k.pages = true
  loader : k.load = load
  addrs : (k.list.map Element.addr).Nodup
  fresh : ∀ e ∈ k.list, e.addr < k.next
  loaded : ∀ e ∈ k.list, ∃ p, e.Value = .ofPage p ∧ load p.Key = .ok p.Value
  distinct : (k.list.map keyOf).Nodup
  index : k.cache.Perm (k.list.map entryOf)
  bound : k.list.length ≤ CacheSize

/-- The state a sequence of `Get`s leaves (the state it started from when one of the
calls does not return). -/
def stateAfter (k : KeyStoreCache) (keyList : List String) : KeyStoreCache :=
  match GetAll k keyList with
  | some (_, k1) => k1
  | none => k

/-- The keys a call removed from the index: those of the index of `k` that the index of
`k1` no longer has. -/
def evicted (k k1 : KeyStoreCache) : List String :=
  (keys k).filter (fun key => decide (key ∉ keys k1))

/-- The number of calls made after the last `Get` of `key`, in a history of calls of
`Get` given oldest first; the larger it is, the less recently `key` was accessed. -/
def callsSince (hist : List String) (key : String) : Nat :=
  hist.reverse.indexOf key

/-- The sample key number `i`: `i + 1` times the letter k. -/
def keyN (i : Nat) : String := String.mk (List.replicate (i + 1) 'k')

/-- The first `n` sample keys. -/
def manyKeys (n : Nat) : List String := (List.range n).map keyN

/-- A full cache: the state after `Get` of `CacheSize` sample keys on `New echoLoad`. -/
def fullCache : KeyStoreCache := stateAfter (New echoLoad) (manyKeys CacheSize)

/-- The order of the recency list after a `Get` of `key` that returns, from the order
before it: the key comes first, the other keys keep their order, and the first
`CacheSize` keys stay. -/
def touch (keyOrder : List String) (key : String) : List String :=
  (key :: keyOrder.filter (fun c => c != key)).take CacheSize

/-- Follows the words of the claim on the recency order: the distinct keys of a
sequence of calls, given oldest call first, ordered by most recent access first
(`List.dedup` keeps the last occurrence of each key). -/
def mostRecentFirst (hist : List String) : List String := hist.dedup.reverse

/-- The keys removed from the index by the calls of a sequence of `Get`s, in order. -/
def evictions (k : KeyStoreCache) : List String → List String
  | [] => []
  | key :: rest =>
    match getReturn k key with
    | none => []
    | some (_, k1) => evicted k k1 ++ evictions k1 rest

/-! ## The operations on the channel, in order -/

/-- What a call does that other goroutines can see: a receive from `k.pages`, a send
on it, a call of the loader. -/
inductive Event where
  | receive
  | send
  | load (key : String)
deriving DecidableEq, Repr

/-- The method `PageLength` with the events of the call, in order. -/
def PageLength.traced (k : KeyStoreCache) : Run Nat × List Event :=
  match recv k with
  | none => (⟨.blocked k, []⟩, [])
  | some k1 =>
    let length := Len k1.list
    match send k1 with
    | none => (⟨.blocked k1, []⟩, [.receive])
    | some k2 => (⟨.returned length k2, []⟩, [.receive, .send])

/-- The early exits of `Get` (`Get.found`) after the events `evs`, with the events. -/
def Get.foundTraced (k : KeyStoreCache) (e : Option Element) (evs : List Event) :
    Run String × List Event :=
  match send k with
  | none => (⟨.blocked k, []⟩, evs)
  | some k1 =>
    match e with
    | none => (⟨.panicked nilDereference k1, []⟩, evs ++ [.send])
    | some e =>
      match e.Value.assertPage with
      | none => (⟨.panicked notAPage k1, []⟩, evs ++ [.send])
      | some p => (⟨.returned p.Value k1, []⟩, evs ++ [.send])

/-- The end of `Get` (`Get.store`) after the events `evs`, with the events. -/
def Get.storeTraced (k : KeyStoreCache) (key : String) (p : page) (evs : List Event) :
    Run String × List Event :=
  let k1 := { k with list := PushFront k.list k.next (.ofPage p), next := k.next + 1 }
  let k2 := { k1 with cache := mapSet k1.cache key (Front k1.list) }
  match send k2 with
  | none => (⟨.blocked k2, [key]⟩, evs)
  | some k3 => (⟨.returned p.Value k3, [key]⟩, evs ++ [.send])

/-- The method `Get` with the events of the call, in order. -/
def Get.traced (k : KeyStoreCache) (key : String) : Run String × List Event :=
  match recv k with
  | none => (⟨.blocked k, []⟩, [])
  | some k1 =>
    match mapGet k1.cache key with
    | some e =>
      match e with
      | none => (⟨.panicked nilDereference k1, []⟩, [.receive])
      | some x => Get.foundTraced { k1 with list := MoveToFront k1.list x } e [.receive]
    | none =>
      match mapGet k1.cache key with
      | some e => Get.foundTraced k1 e [.receive]
      | none =>
        match k1.load key with
        | .error err => (⟨.panicked err k1, [key]⟩, [.receive, .load key])
        | .ok v =>
          let p : page := { Key := key, Value := v }
          if CacheSize ≤ mapLen k1.cache then
            match Back k1.list with
            | none => (⟨.panicked nilDereference k1, [key]⟩, [.receive, .load key])
            | some last =>
              match last.Value.assertPage with
              | none => (⟨.panicked notAPage k1, [key]⟩, [.receive, .load key])
              | some q =>
                Get.storeTraced { k1 with cache := mapDelete k1.cache q.Key,
                                          list := Remove k1.list last } key p
                  [.receive, .load key]
          else Get.storeTraced k1 key p [.receive, .load key]

/-! ## Several goroutines calling `Get`

The goroutines share the cache and synchronise on the channel `pages` only; the map
and the list are read and written between the receive and the send of one call.  A
step of a goroutine runs from one point where it may have to wait to the next: from
the receive of line 61 to the call of the loader of line 76 or to the end of the
call, and from the answer of the loader to the end of the call. -/

/-- Where a goroutine that has called `Get` stands: before the receive of line 61, in
the call of the loader of line 76 (it then holds the list), or at the end of its
call, which returned, panicked, or blocked at a send. -/
inductive Caller where
  | ready (key : String)
  | loading (key : String)
  | returned (v : String)
  | panicked (err : String)
  | blocked
deriving DecidableEq, Repr

/-- Whether the goroutine is in the call of the loader. -/
def Caller.isLoading : Caller → Bool
  | .loading _ => true
  | _ => false

/-- The end of the first step of `Get`: the receive blocks, the call is over, or the
loader is called in the state `k1`. -/
inductive Entered where
  | blocked
  | finished (r : Run String)
  | loading (k1 : KeyStoreCache)

/-- Lines 61-75 of `Get`: from the receive to the call of the loader. -/
def Get.enter (k : KeyStoreCache) (key : String) : Entered :=
  match recv k with
  | none => .blocked
  | some k1 =>
    match mapGet k1.cache key with
    | some e =>
      match e with
      | none => .finished ⟨.panicked nilDereference k1, []⟩
      | some x => .finished (Get.found { k1 with list := MoveToFront k1.list x } e)
    | none =>
      match mapGet k1.cache key with
      | some e => .finished (Get.found k1 e)
      | none => .loading k1

/-- Lines 76-88 of `Get`: from the answer of the loader to the end of the call, in the
state `k1` in which the loader was called. -/
def Get.leave (k1 : KeyStoreCache) (key : String) : Run String :=
  match k1.load key with
  | .error err => ⟨.panicked err k1, [key]⟩
  | .ok v =>
    let p : page := { Key := key, Value := v }
    if CacheSize ≤ mapLen k1.cache then
      match Back k1.list with
      | none => ⟨.panicked nilDereference k1, [key]⟩
      | some last =>
        match last.Value.assertPage with
        | none => ⟨.panicked notAPage k1, [key]⟩
        | some q =>
          Get.store { k1 with cache := mapDelete k1.cache q.Key,
                              list := Remove k1.list last } key p
    else Get.store k1 key p

/-- The state a call leaves behind. -/
def Outcome.state {α : Type} : Outcome α → KeyStoreCache
  | .returned _ k => k
  | .panicked _ k => k
  | .blocked k => k

/-- Where a goroutine stands once its call of `Get` is over. -/
def Caller.ofOutcome : Outcome String → Caller
  | .returned v _ => .returned v
  | .panicked err _ => .panicked err
  | .blocked _ => .blocked

/-- The cache, the goroutines that called `Get` on it, and the keys the loader has been
called with so far. -/
structure World where
  cache : KeyStoreCache
  callers : List Caller
  loads : List String

/-- A step of goroutine number `i`; `none` when it cannot move: it waits at the receive,
its call is over, or there is no such goroutine. -/
def World.step (w : World) (i : Nat) : Option World :=
  match w.callers[i]? with
  | some (.ready key) =>
    match Get.enter w.cache key with
    | .blocked => none
    | .finished r =>
      some { cache := r.outcome.state
             callers := w.callers.set i (Caller.ofOutcome r.outcome)
             loads := w.loads ++ r.loads }
    | .loading k1 =>
      some { cache := k1
             callers := w.callers.set i (.loading key)
             loads := w.loads ++ [key] }
  | some (.loading key) =>
    some { cache := (Get.leave w.cache key).outcome.state
           callers := w.callers.set i (Caller.ofOutcome (Get.leave w.cache key).outcome)
           loads := w.loads }
  | _ => none

/-- The world after the goroutines were given the turns of a schedule, in order; a
turn given to a goroutine that cannot move changes nothing. -/
def World.run (w : World) : List Nat → World
  | [] => w
  | i :: rest =>
    match w.step i with
    | none => w.run rest
    | some w1 => w1.run rest

/-- The world in which one goroutine has called `Get` for each key of the list and
none has moved yet. -/
def World.start (k : KeyStoreCache) (keyList : List String) : World :=
  { cache := k, callers := keyList.map Caller.ready, loads := [] }

/-- At most one goroutine is in the call of the loader, and while one is the channel
`pages` is empty. -/
def World.Exclusive (w : World) : Prop :=
  w.callers.countP Caller.isLoading ≤ 1 ∧
    (1 ≤ w.callers.countP Caller.isLoading → w.cache.pages = false)

/-- The worlds in which goroutines that all called `Get(key)` on a cache without the
key can be: before the call of the loader; during it; after it answered; after it
panicked. -/
def World.Flight (load : String → Except String String) (key : String) (w : World) : Prop :=
  (Inv load w.cache ∧ key ∉ order w.cache ∧ w.loads = [] ∧
      ∀ c ∈ w.callers, c = Caller.ready key) ∨
    (w.cache.pages = false ∧ Inv load { w.cache with pages := true } ∧
      key ∉ order w.cache ∧ w.loads = [key] ∧
      w.callers.countP Caller.isLoading = 1 ∧
      ∀ c ∈ w.callers, c = Caller.ready key ∨ c = Caller.loading key) ∨
    (∃ v, load key = .ok v ∧ Inv load w.cache ∧ key ∈ order w.cache ∧ w.loads = [key] ∧
      ∀ c ∈ w.callers, c = Caller.ready key ∨ c = Caller.returned v) ∨
    (∃ err, load key = .error err ∧ w.cache.pages = false ∧ w.loads = [key] ∧
      ∀ c ∈ w.callers, c = Caller.ready key ∨ c = Caller.panicked err)

/-- The number of steps a goroutine can still make, at most. -/
def Caller.stepsLeft : Caller → Nat
  | .ready _ => 2
  | .loading _ => 1
  | _ => 0

/-- The number of steps the goroutines of a world can still make, at most. -/
def World.stepsLeft (w : World) : Nat := (w.callers.map Caller.stepsLeft).sum

/-! ## Lists whose elements are told apart by a key -/

section ListLemmas

variable {α β : Type} [DecidableEq α] [DecidableEq β]

theorem find_of_nodup_map (f : α → β) :
    ∀ (l : List α) (x : α), (l.map f).Nodup → x ∈ l →
      l.find? (fun y => f y == f x) = some x := by
  intro l
  induction l with
  | nil => intro x _ hx; simp at hx
  | cons a l ih =>
    intro x hnd hx
    rw [List.map_cons, List.nodup_cons] at hnd
    by_cases hax : a = x
    · subst hax; simp
    · have hxl : x ∈ l := by
        rcases List.mem_cons.1 hx with h | h
        · exact absurd h.symm hax
        · exact h
      have hne : f a ≠ f x := fun h => hnd.1 (h ▸ List.mem_map_of_mem f hxl)
      rw [List.find?_cons_of_neg _ (by simpa using hne)]
      exact ih x hnd.2 hxl

theorem eraseP_of_nodup_map (f : α → β) :
    ∀ (l : List α) (x : α), (l.map f).Nodup → x ∈ l →
      l.eraseP (fun y => f y == f x) = l.erase x := by
  intro l
  induction l with
  | nil => intro x _ hx; simp at hx
  | cons a l ih =>
    intro x hnd hx
    rw [List.map_cons, List.nodup_cons] at hnd
    by_cases hax : a = x
    · subst hax; simp
    · have hxl : x ∈ l := by
        rcases List.mem_cons.1 hx with h | h
        · exact absurd h.symm hax
        · exact h
      have hne : f a ≠ f x := fun h => hnd.1 (h ▸ List.mem_map_of_mem f hxl)
      rw [List.eraseP_cons_of_neg (by simpa using hne), List.erase_cons_tail (by simpa using hax)]
      rw [ih x hnd.2 hxl]

theorem filter_of_nodup_map (f : α → β) :
    ∀ (l : List α) (x : α), (l.map f).Nodup → x ∈ l →
      l.filter (fun y => f y != f x) = l.erase x := by
  intro l x hnd hx
  have hl : l.Nodup := List.Nodup.of_map f hnd
  rw [List.Nodup.erase_eq_filter hl]
  apply List.filter_congr
  intro y hy
  have hinj := List.inj_on_of_nodup_map hnd
  by_cases hyx : y = x
  · subst hyx; simp
  · have : f y ≠ f x := fun h => hyx (hinj hy hx h)
    have h1 : (f y != f x) = true := bne_iff_ne.2 this
    have h2 : (y != x) = true := bne_iff_ne.2 hyx
    rw [h1, h2]

theorem erase_concat_self (d : List α) (x : α) (h : (d ++ [x]).Nodup) :
    (d ++ [x]).erase x = d := by
  have hx : x ∉ d := by
    intro hmem
    have := List.nodup_append.1 h
    exact this.2.2 hmem (List.mem_singleton_self x)
  rw [List.erase_append_right _ hx]
  simp

theorem lookup_of_nodup_keys {γ : Type} :
    ∀ (m : List (α × γ)) (a : α) (c : γ), (m.map Prod.fst).Nodup →
      (m.lookup a = some c ↔ (a, c) ∈ m) := by
  intro m
  induction m with
  | nil => intro a c _; simp
  | cons hd m ih =>
    intro a c hnd
    obtain ⟨a0, c0⟩ := hd
    rw [List.map_cons, List.nodup_cons] at hnd
    by_cases h : a = a0
    · subst h
      simp only [List.lookup_cons_self, Option.some.injEq, List.mem_cons, Prod.mk.injEq, true_and]
      constructor
      · intro h; exact Or.inl h.symm
      · rintro (h | h)
        · exact h.symm
        · exact absurd (List.mem_map_of_mem Prod.fst h) hnd.1
    · rw [List.lookup_cons, show (a == a0) = false by simpa using h]
      simp only [List.mem_cons, Prod.mk.injEq, h, false_and, false_or]
      exact ih a c hnd.2

theorem lookup_none_of_not_mem {γ : Type} (m : List (α × γ)) (a : α)
    (h : a ∉ m.map Prod.fst) : m.lookup a = none := by
  rw [List.lookup_eq_none_iff]
  intro p hp
  have : p.1 ≠ a := fun heq => h (heq ▸ List.mem_map_of_mem Prod.fst hp)
  simpa using fun heq => this heq.symm

end ListLemmas

/-! ## What the invariant says of the index -/

section Index

variable {load : String → Except String String} {k : KeyStoreCache}

theorem map_fst_entryOf (l : List Element) :
    (l.map entryOf).map Prod.fst = l.map keyOf := by
  simp [List.map_map, Function.comp_def, entryOf]

theorem Inv.keys_perm (h : Inv load k) : (keys k).Perm (order k) := by
  have := h.index.map Prod.fst
  rwa [map_fst_entryOf] at this

theorem Inv.keys_nodup (h : Inv load k) : (keys k).Nodup :=
  h.keys_perm.nodup_iff.2 h.distinct

theorem Inv.mem_cache (h : Inv load k) {key : String} {ptr : Option Element} :
    (key, ptr) ∈ k.cache ↔ ∃ x, x ∈ k.list ∧ keyOf x = key ∧ ptr = some x := by
  rw [h.index.mem_iff, List.mem_map]
  constructor
  · rintro ⟨x, hx, heq⟩
    simp only [entryOf, Prod.mk.injEq] at heq
    exact ⟨x, hx, heq.1, heq.2.symm⟩
  · rintro ⟨x, hx, rfl, rfl⟩
    exact ⟨x, hx, rfl⟩

theorem Inv.mapGet_some (h : Inv load k) {key : String} {ptr : Option Element} :
    mapGet k.cache key = some ptr ↔ ∃ x, x ∈ k.list ∧ keyOf x = key ∧ ptr = some x := by
  unfold mapGet
  rw [lookup_of_nodup_keys k.cache key ptr h.keys_nodup, h.mem_cache]

theorem Inv.mapGet_mem (h : Inv load k) {x : Element} (hx : x ∈ k.list) :
    mapGet k.cache (keyOf x) = some (some x) :=
  h.mapGet_some.2 ⟨x, hx, rfl, rfl⟩

theorem Inv.mapGet_none (h : Inv load k) {key : String} (hkey : key ∉ order k) :
    mapGet k.cache key = none := by
  unfold mapGet
  apply lookup_none_of_not_mem
  intro hmem
  exact hkey (h.keys_perm.mem_iff.1 hmem)

theorem Inv.mapGet_none_iff (h : Inv load k) {key : String} :
    mapGet k.cache key = none ↔ key ∉ order k := by
  constructor
  · intro hnone hmem
    obtain ⟨x, hx, rfl⟩ := List.mem_map.1 hmem
    rw [h.mapGet_mem hx] at hnone
    cases hnone
  · exact h.mapGet_none

theorem Inv.len_eq (h : Inv load k) : mapLen k.cache = Len k.list := by
  unfold mapLen Len
  rw [h.index.length_eq, List.length_map]

theorem keyOf_of_page {x : Element} {p : page} (hp : x.Value = .ofPage p) :
    keyOf x = p.Key := by
  unfold keyOf; rw [hp]

end Index

/-! ## The equations of `Get` and `PageLength` between two calls -/

section Equations

variable {load : String → Except String String} {k : KeyStoreCache}

theorem recv_of_token (h : k.pages = true) : recv k = some { k with pages := false } := by
  unfold recv; rw [h]; rfl

theorem restore_token (h : k.pages = true) :
    ({ k with pages := true } : KeyStoreCache) = k := by
  cases k
  simp only at h
  subst h
  rfl

theorem pageLength_eq (h : Inv load k) : PageLength k = ⟨.returned (Len k.list) k, []⟩ := by
  unfold PageLength
  rw [recv_of_token h.token]
  simp only [send, Bool.false_eq_true, if_false]
  rw [restore_token h.token]

/-- A hit: the element of the key moves to the front and its value is returned. -/
theorem get_hit (h : Inv load k) {x : Element} {p : page} (hx : x ∈ k.list)
    (hp : x.Value = .ofPage p) :
    Get k p.Key = ⟨.returned p.Value { k with list := x :: k.list.erase x }, []⟩ := by
  have hget : mapGet k.cache p.Key = some (some x) := by
    rw [← keyOf_of_page hp]; exact h.mapGet_mem hx
  have hfind := find_of_nodup_map Element.addr k.list x h.addrs hx
  have herase := eraseP_of_nodup_map Element.addr k.list x h.addrs hx
  unfold Get
  rw [recv_of_token h.token]
  simp only [hget, MoveToFront, hfind, herase, Get.found, send, Bool.false_eq_true, if_false,
    hp, GoValue.assertPage]
  have hk := restore_token h.token
  cases k
  simp only [KeyStoreCache.mk.injEq] at hk
  simp [hk.2.1]

/-- A miss whose load fails: the panic of the loader leaves `Get`. -/
theorem get_fail (h : Inv load k) {key err : String} (hkey : key ∉ order k)
    (hl : load key = .error err) :
    Get k key = ⟨.panicked err { k with pages := false }, [key]⟩ := by
  unfold Get
  rw [recv_of_token h.token]
  simp only [h.mapGet_none hkey, h.loader, hl]

/-- A miss while there is room: the loaded page is pushed to the front. -/
theorem get_miss (h : Inv load k) {key v : String} (hkey : key ∉ order k)
    (hl : load key = .ok v) (hroom : Len k.list < CacheSize) :
    Get k key = ⟨.returned v
      { k with list := ⟨k.next, .ofPage ⟨key, v⟩⟩ :: k.list,
               cache := (key, some ⟨k.next, .ofPage ⟨key, v⟩⟩) :: k.cache,
               next := k.next + 1 }, [key]⟩ := by
  have hfilter : mapDelete k.cache key = k.cache := by
    unfold mapDelete
    rw [List.filter_eq_self]
    intro kv hkv
    have : kv.1 ≠ key := by
      intro heq
      exact hkey (h.keys_perm.mem_iff.1 (heq ▸ List.mem_map_of_mem Prod.fst hkv))
    simpa using this
  have hlen : ¬ CacheSize ≤ mapLen k.cache := by rw [h.len_eq]; omega
  unfold Get
  rw [recv_of_token h.token]
  simp only [h.mapGet_none hkey, h.loader, hl, hlen, if_false, Get.store, PushFront, mapSet,
    Front, List.head?_cons, send, Bool.false_eq_true, hfilter]
  rw [h.token]

/-- A miss while the cache is full: the back of the list leaves the list and the
index, then the loaded page is pushed to the front. -/
theorem get_evict (h : Inv load k) {key v : String} (hkey : key ∉ order k)
    (hl : load key = .ok v) (hfull : CacheSize ≤ Len k.list) {d : List Element}
    {last : Element} (hlast : k.list = d ++ [last]) :
    Get k key = ⟨.returned v
      { k with list := ⟨k.next, .ofPage ⟨key, v⟩⟩ :: d,
               cache := (key, some ⟨k.next, .ofPage ⟨key, v⟩⟩) ::
                 mapDelete k.cache (keyOf last),
               next := k.next + 1 }, [key]⟩ := by
  have hmem : last ∈ k.list := by rw [hlast]; simp
  obtain ⟨q, hq, -⟩ := h.loaded last hmem
  have hback : Back k.list = some last := by
    unfold Back; rw [hlast]; simp
  have hnd : (d ++ [last]).Nodup := hlast ▸ List.Nodup.of_map _ h.addrs
  have hremove : Remove k.list last = d := by
    unfold Remove
    rw [eraseP_of_nodup_map Element.addr k.list last h.addrs hmem, hlast]
    exact erase_concat_self d last hnd
  have hfilter : mapDelete (mapDelete k.cache q.Key) key = mapDelete k.cache q.Key := by
    unfold mapDelete
    rw [List.filter_eq_self]
    intro kv hkv
    have hkv1 : kv ∈ k.cache := List.mem_of_mem_filter hkv
    have : kv.1 ≠ key := by
      intro heq
      exact hkey (h.keys_perm.mem_iff.1 (heq ▸ List.mem_map_of_mem Prod.fst hkv1))
    simpa using this
  have hlen : CacheSize ≤ mapLen k.cache := by rw [h.len_eq]; exact hfull
  unfold Get
  rw [recv_of_token h.token]
  simp only [h.mapGet_none hkey, h.loader, hl, hlen, if_true, hback, hq, GoValue.assertPage,
    hremove, Get.store, PushFront, mapSet, Front, List.head?_cons, send, Bool.false_eq_true,
    if_false, hfilter, keyOf_of_page hq]
  rw [h.token]

end Equations

/-! ## The invariant holds between any two calls -/

section Invariant

variable {load : String → Except String String} {k : KeyStoreCache}

theorem Inv.new (load : String → Except String String) : Inv load (New load) where
  token := rfl
  loader := rfl
  addrs := List.nodup_nil
  fresh := by intro e he; cases he
  loaded := by intro e he; cases he
  distinct := List.nodup_nil
  index := List.Perm.refl _
  bound := Nat.zero_le _

theorem Inv.hit (h : Inv load k) {x : Element} (hx : x ∈ k.list) :
    Inv load { k with list := x :: k.list.erase x } := by
  have hperm : (x :: k.list.erase x).Perm k.list := (List.perm_cons_erase hx).symm
  exact
    { token := h.token
      loader := h.loader
      addrs := (hperm.map Element.addr).nodup_iff.2 h.addrs
      fresh := fun e he => h.fresh e (hperm.mem_iff.1 he)
      loaded := fun e he => h.loaded e (hperm.mem_iff.1 he)
      distinct := (hperm.map keyOf).nodup_iff.2 h.distinct
      index := h.index.trans (hperm.map entryOf).symm
      bound := by
        have := hperm.length_eq
        simp only at this ⊢
        rw [this]; exact h.bound }

theorem Inv.miss (h : Inv load k) {key v : String} (hkey : key ∉ order k)
    (hl : load key = .ok v) (hroom : Len k.list < CacheSize) :
    Inv load { k with list := ⟨k.next, .ofPage ⟨key, v⟩⟩ :: k.list,
                      cache := (key, some ⟨k.next, .ofPage ⟨key, v⟩⟩) :: k.cache,
                      next := k.next + 1 } where
  token := h.token
  loader := h.loader
  addrs := by
    simp only [List.map_cons, List.nodup_cons]
    refine ⟨?_, h.addrs⟩
    intro hmem
    obtain ⟨e, he, heq⟩ := List.mem_map.1 hmem
    have := h.fresh e he
    omega
  fresh := by
    intro e he
    rcases List.mem_cons.1 he with rfl | he
    · exact Nat.lt_succ_self _
    · exact Nat.lt_succ_of_lt (h.fresh e he)
  loaded := by
    intro e he
    rcases List.mem_cons.1 he with rfl | he
    · exact ⟨_, rfl, hl⟩
    · exact h.loaded e he
  distinct := by
    simp only [List.map_cons, List.nodup_cons]
    exact ⟨hkey, h.distinct⟩
  index := by
    simp only [List.map_cons]
    exact List.Perm.cons _ h.index
  bound := by
    unfold Len at hroom
    simp only [List.length_cons]
    omega

theorem Inv.evict (h : Inv load k) {key v : String} (hkey : key ∉ order k)
    (hl : load key = .ok v) {d : List Element} {last : Element}
    (hlast : k.list = d ++ [last]) :
    Inv load { k with list := ⟨k.next, .ofPage ⟨key, v⟩⟩ :: d,
                      cache := (key, some ⟨k.next, .ofPage ⟨key, v⟩⟩) ::
                        mapDelete k.cache (keyOf last),
                      next := k.next + 1 } := by
  have hmem : last ∈ k.list := by rw [hlast]; simp
  have hsub : ∀ e, e ∈ d → e ∈ k.list := by
    intro e he; rw [hlast]; exact List.mem_append_left _ he
  have hd : k.list.erase last = d := by
    rw [hlast]
    exact erase_concat_self d last (hlast ▸ List.Nodup.of_map _ h.addrs)
  have hdel : (mapDelete k.cache (keyOf last)).Perm (d.map entryOf) := by
    unfold mapDelete
    have h1 := h.index.filter (fun kv => kv.1 != keyOf last)
    rw [List.filter_map] at h1
    have h2 : List.filter ((fun kv : String × Option Element => kv.1 != keyOf last) ∘ entryOf)
        k.list = d := by
      rw [← hd, ← filter_of_nodup_map keyOf k.list last h.distinct hmem]
      rfl
    rwa [h2] at h1
  exact
    { token := h.token
      loader := h.loader
      addrs := by
        have hnd := h.addrs
        rw [hlast, List.map_append] at hnd
        simp only [List.map_cons, List.nodup_cons]
        refine ⟨?_, (List.nodup_append.1 hnd).1⟩
        intro hm
        obtain ⟨e, he, heq⟩ := List.mem_map.1 hm
        have := h.fresh e (hsub e he)
        omega
      fresh := by
        intro e he
        rcases List.mem_cons.1 he with rfl | he
        · exact Nat.lt_succ_self _
        · exact Nat.lt_succ_of_lt (h.fresh e (hsub e he))
      loaded := by
        intro e he
        rcases List.mem_cons.1 he with rfl | he
        · exact ⟨_, rfl, hl⟩
        · exact h.loaded e (hsub e he)
      distinct := by
        have hnd := h.distinct
        rw [hlast, List.map_append] at hnd
        simp only [List.map_cons, List.nodup_cons]
        refine ⟨?_, (List.nodup_append.1 hnd).1⟩
        intro hm
        apply hkey
        unfold order
        rw [hlast, List.map_append]
        exact List.mem_append_left _ hm
      index := by
        simp only [List.map_cons]
        exact List.Perm.cons _ hdel
      bound := by
        have := h.bound
        rw [hlast] at this
        simp only [List.length_append, List.length_cons, List.length_nil] at this
        simp only [List.length_cons]
        omega }

/-- The four ways a `Get` goes between two calls. -/
theorem get_cases (h : Inv load k) (key : String) :
    (∃ x p, x ∈ k.list ∧ x.Value = .ofPage p ∧ p.Key = key) ∨
    (key ∉ order k ∧ ∃ err, load key = .error err) ∨
    (key ∉ order k ∧ Len k.list < CacheSize ∧ ∃ v, load key = .ok v) ∨
    (key ∉ order k ∧ CacheSize ≤ Len k.list ∧ (∃ v, load key = .ok v) ∧
      ∃ d last, k.list = d ++ [last]) := by
  by_cases hkey : key ∈ order k
  · left
    obtain ⟨x, hx, rfl⟩ := List.mem_map.1 hkey
    obtain ⟨p, hp, -⟩ := h.loaded x hx
    exact ⟨x, p, hx, hp, (keyOf_of_page hp).symm⟩
  · right
    cases hl : load key with
    | error err => exact Or.inl ⟨hkey, err, rfl⟩
    | ok v =>
      right
      by_cases hroom : Len k.list < CacheSize
      · exact Or.inl ⟨hkey, hroom, v, rfl⟩
      · right
        have hfull : CacheSize ≤ Len k.list := Nat.le_of_not_lt hroom
        refine ⟨hkey, hfull, ⟨v, rfl⟩, ?_⟩
        have hne : k.list ≠ [] := by
          intro hnil
          rw [hnil] at hfull
          exact absurd hfull (by decide)
        exact ⟨k.list.dropLast, k.list.getLast hne, (List.dropLast_append_getLast hne).symm⟩

theorem Inv.get (h : Inv load k) {key v : String} {k1 : KeyStoreCache}
    (hret : (Get k key).outcome = .returned v k1) : Inv load k1 := by
  rcases get_cases h key with ⟨x, p, hx, hp, rfl⟩ | ⟨hkey, err, hl⟩ | ⟨hkey, hroom, w, hl⟩ |
    ⟨hkey, hfull, ⟨w, hl⟩, d, last, hlast⟩
  · rw [get_hit h hx hp] at hret
    cases hret
    exact h.hit hx
  · rw [get_fail h hkey hl] at hret
    cases hret
  · rw [get_miss h hkey hl hroom] at hret
    cases hret
    exact h.miss hkey hl hroom
  · rw [get_evict h hkey hl hfull hlast] at hret
    cases hret
    exact h.evict hkey hl hlast

theorem Inv.pageLength (h : Inv load k) {n : Nat} {k1 : KeyStoreCache}
    (hret : (PageLength k).outcome = .returned n k1) : Inv load k1 := by
  rw [pageLength_eq h] at hret
  cases hret
  exact h

theorem Reachable.inv (hr : Reachable load k) : Inv load k := by
  induction hr with
  | new => exact Inv.new load
  | get _ hret ih => exact ih.get hret
  | pageLength _ hret ih => exact ih.pageLength hret

end Invariant

/-! ## Sequences of calls -/

section Sequences

variable {load : String → Except String String} {k : KeyStoreCache}

theorem getReturn_eq {key v : String} {k1 : KeyStoreCache} {ls : List String}
    (h : Get k key = ⟨.returned v k1, ls⟩) : getReturn k key = some (v, k1) := by
  unfold getReturn; rw [h]

theorem getReturn_some {key v : String} {k1 : KeyStoreCache}
    (h : getReturn k key = some (v, k1)) : (Get k key).outcome = .returned v k1 := by
  unfold getReturn at h
  cases hout : (Get k key).outcome with
  | returned w k2 => rw [hout] at h; cases h; rfl
  | panicked err k2 => rw [hout] at h; cases h
  | blocked k2 => rw [hout] at h; cases h

theorem getAll_reachable (keyList : List String) :
    ∀ (k k1 : KeyStoreCache) (vs : List String), Reachable load k →
      GetAll k keyList = some (vs, k1) → Reachable load k1 := by
  induction keyList with
  | nil =>
    intro k k1 vs hr h
    simp only [GetAll, Option.some.injEq, Prod.mk.injEq] at h
    exact h.2 ▸ hr
  | cons key rest ih =>
    intro k k1 vs hr h
    unfold GetAll at h
    cases hg : getReturn k key with
    | none => rw [hg] at h; cases h
    | some r =>
      obtain ⟨v, k2⟩ := r
      simp only [hg] at h
      cases hrest : GetAll k2 rest with
      | none => simp [hrest] at h
      | some r2 =>
        obtain ⟨ws, k3⟩ := r2
        simp only [hrest, Option.some.injEq, Prod.mk.injEq] at h
        exact h.2 ▸ ih k2 k3 ws (Reachable.get hr (getReturn_some hg)) hrest

end Sequences

/-! ## The index under `delete` -/

section MapLemmas

theorem mapGet_mapDelete_self (m : List (String × Option Element)) (key : String) :
    mapGet (mapDelete m key) key = none := by
  unfold mapGet mapDelete
  rw [List.lookup_eq_none_iff]
  intro p hp
  have := (List.mem_filter.1 hp).2
  simp only [bne_iff_ne, ne_eq] at this ⊢
  exact fun h => this h.symm

theorem mapGet_mapDelete_ne (m : List (String × Option Element)) {key other : String}
    (h : other ≠ key) : mapGet (mapDelete m key) other = mapGet m other := by
  unfold mapGet mapDelete
  induction m with
  | nil => rfl
  | cons hd m ih =>
    obtain ⟨a, c⟩ := hd
    by_cases ha : a = key
    · subst ha
      have h1 : (other == a) = false := by simpa using h
      rw [List.filter_cons_of_neg (by simp), List.lookup_cons, h1]
      exact ih
    · rw [List.filter_cons_of_pos (by simpa using ha), List.lookup_cons, List.lookup_cons, ih]

theorem mapGet_cons_ne (m : List (String × Option Element)) {key other : String}
    (e : Option Element) (h : other ≠ key) : mapGet ((key, e) :: m) other = mapGet m other := by
  unfold mapGet
  rw [List.lookup_cons, show (other == key) = false by simpa using h]

end MapLemmas

/-! ## Sample states -/

section Samples

/-- The state after `Get("a")`, `Get("b")`, `Get("a")`, `Get("c")` on `New echoLoad`. -/
theorem abac_run : GetAll (New echoLoad) ["a", "b", "a", "c"] =
    some (["value of a", "value of b", "value of a", "value of c"], abac) := rfl

theorem abac_reachable : Reachable echoLoad abac :=
  getAll_reachable _ _ _ _ Reachable.new abac_run

theorem afterA_reachable : Reachable failX afterA :=
  Reachable.get Reachable.new
    (rfl : (Get (New failX) "a").outcome = Outcome.returned "value of a" afterA)

theorem stateAfter_eq {k k1 : KeyStoreCache} {keyList vs : List String}
    (h : GetAll k keyList = some (vs, k1)) : stateAfter k keyList = k1 := by
  unfold stateAfter; rw [h]

theorem keyN_injective : Function.Injective keyN := by
  intro i j hij
  unfold keyN at hij
  have hlen := congrArg (fun s : String => s.data.length) hij
  simp only [List.length_replicate] at hlen
  omega

theorem manyKeys_nodup (n : Nat) : (manyKeys n).Nodup :=
  List.Nodup.map keyN_injective (List.nodup_range n)

theorem manyKeys_length (n : Nat) : (manyKeys n).length = n := by
  unfold manyKeys; simp

theorem keyN_not_mem (n : Nat) : keyN n ∉ manyKeys n := by
  unfold manyKeys
  intro hmem
  obtain ⟨i, hi, heq⟩ := List.mem_map.1 hmem
  have := keyN_injective heq
  rw [List.mem_range] at hi
  omega

theorem echoLoad_ok (key : String) : ∃ v, echoLoad key = .ok v := ⟨_, rfl⟩

end Samples

/-! ## Misses and the order of the recency list -/

section Misses

variable {load : String → Except String String} {k : KeyStoreCache}

theorem take_append_take {α : Type} (n : Nat) (p l : List α) :
    (p ++ l.take n).take n = (p ++ l).take n := by
  rw [List.take_append_eq_append_take, List.take_append_eq_append_take, List.take_take,
    Nat.min_eq_left (Nat.sub_le _ _)]

theorem order_of_concat {d : List Element} {last : Element} (hlast : k.list = d ++ [last]) :
    order k = d.map keyOf ++ [keyOf last] := by
  unfold order; rw [hlast]; simp

/-- A miss that the loader answers puts the key in front of the order and keeps the
first `CacheSize` keys. -/
theorem miss_order (h : Inv load k) {key v : String} (hkey : key ∉ order k)
    (hl : load key = .ok v) :
    ∃ k1, Get k key = ⟨.returned v k1, [key]⟩ ∧ Inv load k1 ∧
      order k1 = (key :: order k).take CacheSize := by
  rcases get_cases h key with ⟨x, p, hx, hp, hpk⟩ | ⟨-, err, hl1⟩ | ⟨-, hroom, w, hl1⟩ |
    ⟨-, hfull, ⟨w, hl1⟩, d, last, hlast⟩
  · exact absurd (List.mem_map.2 ⟨x, hx, hpk ▸ keyOf_of_page hp⟩) hkey
  · rw [hl] at hl1; cases hl1
  · refine ⟨_, get_miss h hkey hl hroom, h.miss hkey hl hroom, ?_⟩
    rw [List.take_of_length_le]
    · rfl
    · unfold Len at hroom
      simp only [order, List.length_cons, List.length_map]
      omega
  · refine ⟨_, get_evict h hkey hl hfull hlast, h.evict hkey hl hlast, ?_⟩
    have hlen : (d.map keyOf).length + 1 = CacheSize := by
      have hb := h.bound
      unfold Len at hfull
      rw [hlast] at hb hfull
      simp only [List.length_append, List.length_cons, List.length_nil] at hb hfull
      rw [List.length_map]; omega
    rw [order_of_concat hlast, ← hlen, List.take_succ_cons, List.take_left]
    rfl

/-- A sequence of `Get`s of distinct keys, none of them cached and all answered by the
loader, puts the keys in front of the order, the latest first. -/
theorem getAll_distinct (keyList : List String) :
    ∀ k : KeyStoreCache, Inv load k → keyList.Nodup → (∀ key ∈ keyList, key ∉ order k) →
      (∀ key ∈ keyList, ∃ v, load key = .ok v) →
      ∃ vs k1, GetAll k keyList = some (vs, k1) ∧ Inv load k1 ∧
        order k1 = (keyList.reverse ++ order k).take CacheSize := by
  induction keyList with
  | nil =>
    intro k h _ _ _
    refine ⟨[], k, rfl, h, ?_⟩
    rw [List.reverse_nil, List.nil_append, List.take_of_length_le]
    simp only [order, List.length_map]; exact h.bound
  | cons key rest ih =>
    intro k h hnd hnew hload
    obtain ⟨v, hv⟩ := hload key (List.mem_cons_self _ _)
    obtain ⟨k1, hrun, h1, horder⟩ := miss_order h (hnew key (List.mem_cons_self _ _)) hv
    rw [List.nodup_cons] at hnd
    have hnew1 : ∀ key1 ∈ rest, key1 ∉ order k1 := by
      intro key1 hmem hin
      rw [horder] at hin
      rcases List.mem_cons.1 (List.mem_of_mem_take hin) with heq | hold
      · exact hnd.1 (heq ▸ hmem)
      · exact hnew key1 (List.mem_cons_of_mem _ hmem) hold
    obtain ⟨vs, k2, hrest, h2, horder2⟩ :=
      ih k1 h1 hnd.2 hnew1 (fun key1 hmem => hload key1 (List.mem_cons_of_mem _ hmem))
    refine ⟨v :: vs, k2, ?_, h2, ?_⟩
    · simp only [GetAll, getReturn_eq hrun, hrest]
    · rw [horder2, horder, take_append_take, List.reverse_cons, List.append_assoc]
      rfl

theorem keys_of_evict (key : String) (e : Option Element) (lastKey : String) :
    ((key, e) :: mapDelete k.cache lastKey).map Prod.fst =
      key :: (keys k).filter (fun c => c != lastKey) := by
  unfold mapDelete keys
  rw [List.map_cons, List.filter_map]
  rfl

/-- The eviction removes the key of the back of the list from the index, and no other. -/
theorem evicted_of_evict (h : Inv load k) {key : String} (hkey : key ∉ order k)
    (e : Option Element) (l : List Element) (n : Nat) {d : List Element} {last : Element}
    (hlast : k.list = d ++ [last]) :
    evicted k { k with list := l
                       cache := (key, e) :: mapDelete k.cache (keyOf last)
                       next := n } = [keyOf last] := by
  have hmem : keyOf last ∈ keys k := by
    apply h.keys_perm.mem_iff.2
    rw [order_of_concat hlast]; simp
  unfold evicted
  have hk1 : keys { k with list := l
                           cache := (key, e) :: mapDelete k.cache (keyOf last)
                           next := n } = key :: (keys k).filter (fun c => c != keyOf last) :=
    keys_of_evict key e (keyOf last)
  rw [hk1]
  have hcongr : (keys k).filter
      (fun c => decide (c ∉ key :: (keys k).filter (fun c => c != keyOf last))) =
      (keys k).filter (fun c => c == keyOf last) := by
    apply List.filter_congr
    intro c hc
    have hne : c ≠ key := fun heq => hkey (h.keys_perm.mem_iff.1 (heq ▸ hc))
    by_cases hcl : c = keyOf last
    · subst hcl; simp [hne]
    · simp [hne, hc, hcl]
  rw [hcongr, List.filter_beq, List.count_eq_one_of_mem h.keys_nodup hmem]
  rfl

end Misses

/-! ## The least recently used key -/

section Recency

variable {load : String → Except String String}

/-- In a list without repetition, the last of its first `n` entries comes after each
other one of them. -/
theorem indexOf_lt_of_take {L dk : List String} {gone c : String} {n : Nat}
    (hnd : L.Nodup) (hT : L.take n = dk ++ [gone]) (hc : c ∈ dk ++ [gone])
    (hne : c ≠ gone) : L.indexOf c < L.indexOf gone := by
  have hL : L = (dk ++ [gone]) ++ L.drop n := by
    rw [← hT]; exact (List.take_append_drop n L).symm
  have hndT : (dk ++ [gone]).Nodup := hT ▸ (List.take_sublist n L).nodup hnd
  have hgone : gone ∉ dk := fun hin =>
    (List.nodup_append.1 hndT).2.2 hin (List.mem_singleton_self gone)
  have hcd : c ∈ dk := by
    rcases List.mem_append.1 hc with hin | hin
    · exact hin
    · exact absurd (List.mem_singleton.1 hin) hne
  rw [hL, List.indexOf_append_of_mem hc, List.indexOf_append_of_mem hcd,
    List.indexOf_append_of_mem (List.mem_append_right dk (List.mem_singleton_self gone)),
    List.indexOf_append_of_not_mem hgone, List.indexOf_cons_self, Nat.add_zero]
  exact List.indexOf_lt_length.2 hcd

/-- After `i` calls of `Get` on distinct keys that the loader answers, the order of the
recency list is the last `CacheSize` keys, the latest first. -/
theorem order_after_distinct {keyList : List String} (i : Nat) (hnd : keyList.Nodup)
    (hload : ∀ key ∈ keyList, ∃ v, load key = .ok v) :
    ∃ vs k, GetAll (New load) (keyList.take i) = some (vs, k) ∧ Inv load k ∧
      order k = (keyList.take i).reverse.take CacheSize := by
  obtain ⟨vs, k, hrun, hk, horder⟩ := getAll_distinct (keyList.take i) (New load)
    (Inv.new load) ((List.take_sublist i keyList).nodup hnd) (fun _ _ hmem => by cases hmem)
    (fun key hmem => hload key (List.mem_of_mem_take hmem))
  refine ⟨vs, k, hrun, hk, ?_⟩
  rw [horder]
  simp [order, New]

/-- The key of call number `i` is none of the keys of the calls before it. -/
theorem not_mem_take_of_nodup {keyList : List String} {i : Nat} {key : String}
    (hnd : keyList.Nodup) (hkey : keyList[i]? = some key) : key ∉ keyList.take i := by
  obtain ⟨hlt, hget⟩ := List.getElem?_eq_some.1 hkey
  intro hmem
  have hsplit := List.take_append_drop i keyList
  rw [List.drop_eq_getElem_cons hlt, hget] at hsplit
  rw [← hsplit] at hnd
  exact (List.nodup_append.1 hnd).2.2 hmem (List.mem_cons_self _ _)

end Recency

/-! ## Hits, failures and the calls of the loader -/

section Hits

variable {load : String → Except String String}

/-- Any number of `Get`s of a cached key return the value of its page and change
neither the index nor the length of the list. -/
theorem repeat_hit {x : Element} {p : page} (hp : x.Value = .ofPage p) (n : Nat) :
    ∀ k : KeyStoreCache, Inv load k → x ∈ k.list →
      ∃ k1, GetAll k (List.replicate n p.Key) = some (List.replicate n p.Value, k1) ∧
        Inv load k1 ∧ k1.cache = k.cache ∧ k1.list.length = k.list.length := by
  induction n with
  | zero => intro k h _; exact ⟨k, rfl, h, rfl, rfl⟩
  | succ n ih =>
    intro k h hx
    have hrun := get_hit h hx hp
    obtain ⟨k1, hrest, h1, hcache, hlen⟩ := ih _ (h.hit hx) (List.mem_cons_self _ _)
    refine ⟨k1, ?_, h1, hcache, ?_⟩
    · simp only [List.replicate_succ, GetAll, getReturn_eq hrun, hrest]
    · rw [hlen]
      exact (List.perm_cons_erase hx).length_eq.symm

/-- A key whose load fails is not cached. -/
theorem not_cached_of_error {k : KeyStoreCache} (h : Inv load k) {key err : String}
    (hl : load key = .error err) : key ∉ order k := by
  intro hmem
  obtain ⟨x, hx, rfl⟩ := List.mem_map.1 hmem
  obtain ⟨p, hp, hok⟩ := h.loaded x hx
  rw [keyOf_of_page hp, hok] at hl
  cases hl

/-- A `Get` that finds the list in the channel and the key out of the index calls the
loader once, with the key, whatever the loader answers. -/
theorem loads_of_absent (k : KeyStoreCache) (key : String) (htoken : k.pages = true)
    (hget : mapGet k.cache key = none) : (Get k key).loads = [key] := by
  unfold Get
  rw [recv_of_token htoken]
  simp only [hget]
  cases k.load key with
  | error err => rfl
  | ok v =>
    simp only
    split
    · cases Back k.list with
      | none => rfl
      | some last =>
        simp only
        cases last.Value.assertPage with
        | none => rfl
        | some q => simp [Get.store, send]
    · simp [Get.store, send]

end Hits

/-! ## A full cache -/

section Full

theorem fullCache_spec :
    Reachable echoLoad fullCache ∧ order fullCache = (manyKeys CacheSize).reverse := by
  obtain ⟨vs, k1, hrun, -, horder⟩ := getAll_distinct (manyKeys CacheSize) (New echoLoad)
    (Inv.new echoLoad) (manyKeys_nodup _) (fun _ _ hmem => by cases hmem)
    (fun key _ => echoLoad_ok key)
  have hstate : fullCache = k1 := stateAfter_eq hrun
  rw [hstate]
  refine ⟨getAll_reachable _ _ _ _ Reachable.new hrun, ?_⟩
  rw [horder, List.take_of_length_le]
  · exact List.append_nil _
  · rw [List.length_append, List.length_reverse, manyKeys_length]
    exact Nat.le_refl _

theorem fullCache_reachable : Reachable echoLoad fullCache := fullCache_spec.1

theorem fullCache_len : mapLen fullCache.cache = CacheSize := by
  rw [fullCache_spec.1.inv.len_eq]
  have h := congrArg List.length fullCache_spec.2
  simp only [order, List.length_map, List.length_reverse, manyKeys_length] at h
  exact h

theorem fullCache_absent : mapGet fullCache.cache (keyN CacheSize) = none := by
  apply fullCache_spec.1.inv.mapGet_none
  rw [fullCache_spec.2, List.mem_reverse]
  exact keyN_not_mem CacheSize

theorem fullCache_load : fullCache.load (keyN CacheSize) = .ok ("value of " ++ keyN CacheSize) := by
  rw [fullCache_spec.1.inv.loader]
  rfl

end Full

/-! ## The three ways a call of `Get` ends between two calls -/

section Summary

variable {load : String → Except String String} {k : KeyStoreCache}

/-- Between two calls a `Get` hits, or misses and panics in the loader, or misses and
stores the loaded page. -/
theorem get_summary (h : Inv load k) (key : String) :
    (∃ x p, x ∈ k.list ∧ x.Value = .ofPage p ∧ p.Key = key ∧ load key = .ok p.Value ∧
      Get k key = ⟨.returned p.Value { k with list := x :: k.list.erase x }, []⟩) ∨
    (key ∉ order k ∧ ∃ err, load key = .error err ∧
      Get k key = ⟨.panicked err { k with pages := false }, [key]⟩) ∨
    (key ∉ order k ∧ ∃ v k1, load key = .ok v ∧ Get k key = ⟨.returned v k1, [key]⟩ ∧
      Inv load k1 ∧ order k1 = (key :: order k).take CacheSize) := by
  by_cases hkey : key ∈ order k
  · left
    obtain ⟨x, hx, rfl⟩ := List.mem_map.1 hkey
    obtain ⟨p, hp, hok⟩ := h.loaded x hx
    have hpk : p.Key = keyOf x := (keyOf_of_page hp).symm
    refine ⟨x, p, hx, hp, hpk, hpk ▸ hok, ?_⟩
    rw [← hpk]
    exact get_hit h hx hp
  · right
    cases hl : load key with
    | error err => exact Or.inl ⟨hkey, err, rfl, get_fail h hkey hl⟩
    | ok v =>
      right
      obtain ⟨k1, hrun, h1, horder⟩ := miss_order h hkey hl
      exact ⟨hkey, v, k1, rfl, hrun, h1, horder⟩

/-- The key of an entry of the index is the key of a node of the list. -/
theorem Inv.mem_order_of_mapGet (h : Inv load k) {key : String} {ptr : Option Element}
    (hget : mapGet k.cache key = some ptr) : key ∈ order k := by
  obtain ⟨x, hx, hkey, -⟩ := h.mapGet_some.1 hget
  exact List.mem_map.2 ⟨x, hx, hkey⟩

end Summary

/-! ## The recency order after any sequence of calls -/

section Order

variable {load : String → Except String String} {k : KeyStoreCache}

theorem order_filter (l : List Element) (key : String) :
    (l.map keyOf).filter (fun c => c != key) =
      (l.filter (fun y => keyOf y != key)).map keyOf := by
  rw [List.filter_map]; rfl

/-- A `Get` that the loader can answer returns its value and puts the key first. -/
theorem get_order (h : Inv load k) {key v : String} (hok : load key = .ok v) :
    ∃ k1 ls, Get k key = ⟨.returned v k1, ls⟩ ∧ Inv load k1 ∧
      order k1 = touch (order k) key := by
  rcases get_summary h key with ⟨x, p, hx, hp, hpk, hok1, hrun⟩ | ⟨-, err, herr, -⟩ |
    ⟨hkey, w, k1, hok1, hrun, h1, horder⟩
  · have hv : p.Value = v := by rw [hok] at hok1; cases hok1; rfl
    have hkx : keyOf x = key := by rw [keyOf_of_page hp, hpk]
    refine ⟨_, [], hv ▸ hrun, h.hit hx, ?_⟩
    have hlist : order { k with list := x :: k.list.erase x } =
        key :: (order k).filter (fun c => c != key) := by
      simp only [order, List.map_cons, hkx]
      rw [order_filter, ← hkx, filter_of_nodup_map keyOf k.list x h.distinct hx]
    unfold touch
    rw [hlist, List.take_of_length_le]
    have hlen : (key :: (order k).filter (fun c => c != key)).length =
        (x :: k.list.erase x).length := by
      rw [← hlist]; simp [order]
    rw [hlen, (List.perm_cons_erase hx).length_eq.symm]
    exact h.bound
  · rw [hok] at herr; cases herr
  · have hv : w = v := by rw [hok] at hok1; cases hok1; rfl
    subst hv
    refine ⟨k1, [key], hrun, h1, ?_⟩
    unfold touch
    rw [horder, List.filter_eq_self.2]
    intro c hc
    have : c ≠ key := fun heq => hkey (heq ▸ hc)
    simpa using this

/-- Any sequence of `Get`s that the loader can answer returns the loader's values and
leaves the order that `touch` computes. -/
theorem getAll_order (keyList : List String) :
    ∀ k : KeyStoreCache, Inv load k → (∀ key ∈ keyList, ∃ v, load key = .ok v) →
      ∃ vs k1, GetAll k keyList = some (vs, k1) ∧ Inv load k1 ∧
        order k1 = keyList.foldl touch (order k) ∧
        keyList.map load = vs.map Except.ok := by
  induction keyList with
  | nil => intro k h _; exact ⟨[], k, rfl, h, rfl, rfl⟩
  | cons key rest ih =>
    intro k h hload
    obtain ⟨v, hv⟩ := hload key (List.mem_cons_self _ _)
    obtain ⟨k1, ls, hrun, h1, horder⟩ := get_order h hv
    obtain ⟨vs, k2, hrest, h2, horder2, hvals⟩ :=
      ih k1 h1 (fun key1 hmem => hload key1 (List.mem_cons_of_mem _ hmem))
    refine ⟨v :: vs, k2, ?_, h2, ?_, ?_⟩
    · simp only [GetAll, getReturn_eq hrun, hrest]
    · rw [horder2, horder]; rfl
    · rw [List.map_cons, List.map_cons, hv, hvals]

theorem dedup_concat (l : List String) (key : String) :
    (l ++ [key]).dedup = l.dedup.filter (fun c => c != key) ++ [key] := by
  induction l with
  | nil => simp
  | cons a l ih =>
    rw [List.cons_append]
    by_cases hal : a ∈ l
    · rw [List.dedup_cons_of_mem (List.mem_append_left _ hal), List.dedup_cons_of_mem hal, ih]
    · by_cases hak : a = key
      · subst hak
        rw [List.dedup_cons_of_mem (List.mem_append_right _ (List.mem_singleton_self a)),
          List.dedup_cons_of_not_mem hal, List.filter_cons_of_neg (by simp), ih]
      · have hnot : a ∉ l ++ [key] := by
          simp only [List.mem_append, List.mem_singleton, not_or]
          exact ⟨hal, hak⟩
        rw [List.dedup_cons_of_not_mem hnot, List.dedup_cons_of_not_mem hal,
          List.filter_cons_of_pos (by simpa using hak), ih, List.cons_append]

theorem mostRecentFirst_concat (hist : List String) (key : String) :
    mostRecentFirst (hist ++ [key]) =
      key :: (mostRecentFirst hist).filter (fun c => c != key) := by
  unfold mostRecentFirst
  rw [dedup_concat, List.reverse_append, List.filter_reverse]
  rfl

theorem mostRecentFirst_nodup (hist : List String) : (mostRecentFirst hist).Nodup :=
  List.nodup_reverse.2 (List.nodup_dedup hist)

/-- Dropping one key from the first `n + 1` entries of a list without repetition
leaves the first `n` entries of the list without the key. -/
theorem take_filter_take (key : String) :
    ∀ (L : List String) (n : Nat), L.Nodup →
      ((L.take (n + 1)).filter (fun c => c != key)).take n =
        (L.filter (fun c => c != key)).take n := by
  intro L
  induction L with
  | nil => intro n _; simp
  | cons a L ih =>
    intro n hnd
    rw [List.nodup_cons] at hnd
    rw [List.take_succ_cons]
    by_cases hak : a = key
    · subst hak
      have hid : ∀ M : List String, (∀ c ∈ M, c ∈ L) →
          M.filter (fun c => c != a) = M := by
        intro M hM
        rw [List.filter_eq_self]
        intro c hc
        have : c ≠ a := fun heq => hnd.1 (heq ▸ hM c hc)
        simpa using this
      rw [List.filter_cons_of_neg (by simp), List.filter_cons_of_neg (by simp),
        hid _ (fun c hc => List.mem_of_mem_take hc), hid L (fun c hc => hc),
        List.take_take, Nat.min_self]
    · rw [List.filter_cons_of_pos (by simpa using hak),
        List.filter_cons_of_pos (by simpa using hak)]
      cases n with
      | zero => rfl
      | succ m => rw [List.take_succ_cons, List.take_succ_cons, ih m hnd.2]

/-- The order `touch` computes from the empty cache is the most recent keys first. -/
theorem foldl_touch (hist : List String) :
    hist.foldl touch [] = (mostRecentFirst hist).take CacheSize := by
  induction hist using List.reverseRecOn with
  | nil => rfl
  | append_singleton l a ih =>
    rw [List.foldl_append, List.foldl_cons, List.foldl_nil, ih, mostRecentFirst_concat]
    unfold touch
    obtain ⟨c, hc⟩ : ∃ c, CacheSize = c + 1 := ⟨99, rfl⟩
    rw [hc, List.take_succ_cons, List.take_succ_cons,
      take_filter_take a _ c (mostRecentFirst_nodup l)]

end Order

/-! ## Sequences of calls that fit in the cache -/

section Fits

variable {load : String → Except String String} {k : KeyStoreCache}

/-- The entry of a key of the order: a node with the page of the key and the value the
loader gives for it. -/
theorem Inv.entry (h : Inv load k) {key : String} (hkey : key ∈ order k) :
    ∃ e v, mapGet k.cache key = some (some e) ∧ e.Value = .ofPage ⟨key, v⟩ ∧
      load key = .ok v := by
  obtain ⟨x, hx, rfl⟩ := List.mem_map.1 hkey
  obtain ⟨p, hp, hok⟩ := h.loaded x hx
  have hpk : p.Key = keyOf x := (keyOf_of_page hp).symm
  exact ⟨x, p.Value, h.mapGet_mem hx, by rw [hp, ← hpk], hpk ▸ hok⟩

theorem dedup_length_le_of_subset {l m : List String} (hsub : ∀ c ∈ l, c ∈ m) :
    l.dedup.length ≤ m.dedup.length := by
  rw [← List.card_toFinset, ← List.card_toFinset]
  apply Finset.card_le_card
  intro c hc
  exact List.mem_toFinset.2 (hsub c (List.mem_toFinset.1 hc))

theorem mostRecentFirst_length (hist : List String) :
    (mostRecentFirst hist).length = hist.dedup.length := by
  unfold mostRecentFirst; rw [List.length_reverse]

theorem mem_mostRecentFirst {hist : List String} {c : String} :
    c ∈ mostRecentFirst hist ↔ c ∈ hist := by
  unfold mostRecentFirst; rw [List.mem_reverse, List.mem_dedup]

theorem evicted_eq_nil {k k1 : KeyStoreCache} (hsub : ∀ c ∈ keys k, c ∈ keys k1) :
    evicted k k1 = [] := by
  unfold evicted
  rw [List.filter_eq_nil_iff]
  intro c hc
  simpa using hsub c hc

/-- While the distinct keys of the calls made and to come fit in the cache, no call
evicts. -/
theorem evictions_nil (rest : List String) :
    ∀ (pre : List String) (k : KeyStoreCache), Inv load k → order k = mostRecentFirst pre →
      (∀ key ∈ rest, ∃ v, load key = .ok v) → (pre ++ rest).dedup.length ≤ CacheSize →
      evictions k rest = [] := by
  induction rest with
  | nil => intro _ _ _ _ _ _; rfl
  | cons key rest ih =>
    intro pre k h horder hload hfit
    obtain ⟨v, hv⟩ := hload key (List.mem_cons_self _ _)
    obtain ⟨k1, ls, hrun, h1, horder1⟩ := get_order h hv
    have hlen : (mostRecentFirst (pre ++ [key])).length ≤ CacheSize := by
      rw [mostRecentFirst_length]
      refine Nat.le_trans (dedup_length_le_of_subset ?_) hfit
      intro c hc
      rcases List.mem_append.1 hc with hin | hin
      · exact List.mem_append_left _ hin
      · exact List.mem_append_right _ (List.mem_cons.2 (Or.inl (List.mem_singleton.1 hin)))
    have horder2 : order k1 = mostRecentFirst (pre ++ [key]) := by
      rw [horder1, horder, mostRecentFirst_concat] at *
      unfold touch
      exact List.take_of_length_le hlen
    have hev : evicted k k1 = [] := by
      apply evicted_eq_nil
      intro c hc
      apply h1.keys_perm.mem_iff.2
      rw [horder2, mem_mostRecentFirst]
      have := h.keys_perm.mem_iff.1 hc
      rw [horder, mem_mostRecentFirst] at this
      exact List.mem_append_left _ this
    have hrest := ih (pre ++ [key]) k1 h1 horder2
      (fun key1 hmem => hload key1 (List.mem_cons_of_mem _ hmem))
      (by rw [List.append_assoc]; exact hfit)
    simp only [evictions, getReturn_eq hrun, hev, hrest, List.append_nil]

/-- The state after any sequence of `Get`s on a new cache that the loader can answer. -/
theorem getAll_new (keyList : List String) (hload : ∀ key ∈ keyList, ∃ v, load key = .ok v) :
    ∃ vs k, GetAll (New load) keyList = some (vs, k) ∧ Inv load k ∧
      order k = (mostRecentFirst keyList).take CacheSize ∧
      keyList.map load = vs.map Except.ok := by
  obtain ⟨vs, k, hrun, h, horder, hvals⟩ := getAll_order keyList (New load) (Inv.new load) hload
  refine ⟨vs, k, hrun, h, ?_, hvals⟩
  rw [horder]
  exact foldl_touch keyList

end Fits

/-! ## The events of a call -/

section Events

end Events

/-! ## The shape of the events of a call -/

section Shapes

theorem foundTraced_cases (k : KeyStoreCache) (e : Option Element) (evs : List Event)
    (hp : k.pages = false) :
    (∃ err k1, (Get.foundTraced k e evs).1.outcome = .panicked err k1 ∧ k1.pages = true ∧
        (Get.foundTraced k e evs).2 = evs ++ [.send]) ∨
      (∃ v k1, (Get.foundTraced k e evs).1.outcome = .returned v k1 ∧ k1.pages = true ∧
        (Get.foundTraced k e evs).2 = evs ++ [.send]) := by
  unfold Get.foundTraced send
  rw [hp]
  simp only [Bool.false_eq_true, if_false]
  cases e with
  | none => exact Or.inl ⟨_, _, rfl, rfl, rfl⟩
  | some x =>
    simp only
    cases x.Value.assertPage with
    | none => exact Or.inl ⟨_, _, rfl, rfl, rfl⟩
    | some p => exact Or.inr ⟨_, _, rfl, rfl, rfl⟩

theorem storeTraced_cases (k : KeyStoreCache) (key : String) (p : page) (evs : List Event)
    (hp : k.pages = false) :
    ∃ k1, (Get.storeTraced k key p evs).1.outcome = .returned p.Value k1 ∧
      k1.pages = true ∧ (Get.storeTraced k key p evs).2 = evs ++ [.send] := by
  unfold Get.storeTraced send
  simp only [hp, Bool.false_eq_true, if_false]
  exact ⟨_, rfl, by simp⟩

/-- How a call of `Get` ends and the events it has made by then: it blocks at the
receive; or it panics while it holds the list; or it panics after the send; or it
returns after the send. -/
theorem traced_cases (k : KeyStoreCache) (key : String) :
    (k.pages = false ∧ Get.traced k key = (⟨.blocked k, []⟩, [])) ∨
    (k.pages = true ∧ ∃ err k1, (Get.traced k key).1.outcome = .panicked err k1 ∧
      k1.pages = false ∧
      ((Get.traced k key).2 = [.receive] ∨ (Get.traced k key).2 = [.receive, .load key])) ∨
    (k.pages = true ∧ ∃ err k1, (Get.traced k key).1.outcome = .panicked err k1 ∧
      k1.pages = true ∧ (Get.traced k key).2 = [.receive, .send]) ∨
    (k.pages = true ∧ ∃ v k1, (Get.traced k key).1.outcome = .returned v k1 ∧
      k1.pages = true ∧
      ((Get.traced k key).2 = [.receive, .send] ∨
        (Get.traced k key).2 = [.receive, .load key, .send])) := by
  by_cases hp : k.pages = true
  case neg =>
    have hp : k.pages = false := by simpa using hp
    left
    refine ⟨hp, ?_⟩
    unfold Get.traced recv
    simp [hp]
  case pos =>
    right
    unfold Get.traced
    rw [recv_of_token hp]
    simp only
    cases mapGet k.cache key with
    | some e =>
      cases e with
      | none => exact Or.inl ⟨hp, _, _, rfl, rfl, Or.inl rfl⟩
      | some x =>
        simp only
        rcases foundTraced_cases { k with pages := false, list := MoveToFront k.list x }
          (some x) [.receive] rfl with ⟨err, k1, h1, h2, h3⟩ | ⟨v, k1, h1, h2, h3⟩
        · exact Or.inr (Or.inl ⟨hp, err, k1, h1, h2, h3⟩)
        · exact Or.inr (Or.inr ⟨hp, v, k1, h1, h2, Or.inl h3⟩)
    | none =>
      simp only
      cases k.load key with
      | error err => exact Or.inl ⟨hp, _, _, rfl, rfl, Or.inr rfl⟩
      | ok v =>
        simp only
        split
        · cases Back k.list with
          | none => exact Or.inl ⟨hp, _, _, rfl, rfl, Or.inr rfl⟩
          | some last =>
            simp only
            cases last.Value.assertPage with
            | none => exact Or.inl ⟨hp, _, _, rfl, rfl, Or.inr rfl⟩
            | some q =>
              simp only
              obtain ⟨k1, h1, h2, h3⟩ := storeTraced_cases
                { k with pages := false, cache := mapDelete k.cache q.Key,
                         list := Remove k.list last } key ⟨key, v⟩
                [.receive, .load key] rfl
              exact Or.inr (Or.inr ⟨hp, _, k1, h1, h2, Or.inr h3⟩)
        · obtain ⟨k1, h1, h2, h3⟩ := storeTraced_cases { k with pages := false } key
            ⟨key, v⟩ [.receive, .load key] rfl
          exact Or.inr (Or.inr ⟨hp, _, k1, h1, h2, Or.inr h3⟩)

end Shapes

/-! ## The two steps of `Get` -/

section Steps

/-- `Get` is its first step followed, when the loader is called, by its second. -/
theorem get_eq_enter_leave (k : KeyStoreCache) (key : String) :
    Get k key =
      match Get.enter k key with
      | .blocked => ⟨.blocked k, []⟩
      | .finished r => r
      | .loading k1 => Get.leave k1 key := by
  unfold Get Get.enter Get.leave
  cases recv k with
  | none => rfl
  | some k1 =>
    simp only
    cases mapGet k1.cache key with
    | some e =>
      cases e with
      | none => rfl
      | some x => rfl
    | none => rfl

theorem enter_blocked {k : KeyStoreCache} (key : String) (hp : k.pages = false) :
    Get.enter k key = .blocked := by
  unfold Get.enter recv
  simp [hp]

theorem enter_found {k : KeyStoreCache} {key : String} {e : Option Element}
    (hp : k.pages = true) (hget : mapGet k.cache key = some e) :
    Get.enter k key = .finished (Get k key) := by
  unfold Get.enter Get
  rw [recv_of_token hp]
  simp only [hget]
  cases e <;> rfl

theorem enter_absent {k : KeyStoreCache} {key : String} (hp : k.pages = true)
    (hget : mapGet k.cache key = none) :
    Get.enter k key = .loading { k with pages := false } ∧
      Get.leave { k with pages := false } key = Get k key := by
  have henter : Get.enter k key = .loading { k with pages := false } := by
    unfold Get.enter
    rw [recv_of_token hp]
    simp only [hget]
  refine ⟨henter, ?_⟩
  rw [get_eq_enter_leave k key, henter]

end Steps

/-! ## One goroutine at a time holds the list -/

section Exclusion

theorem countP_set {α : Type} (p : α → Bool) :
    ∀ (l : List α) (i : Nat) (a b : α), l[i]? = some a →
      (l.set i b).countP p + (if p a then 1 else 0) =
        l.countP p + (if p b then 1 else 0) := by
  intro l
  induction l with
  | nil => intro i a b h; simp at h
  | cons x l ih =>
    intro i a b h
    cases i with
    | zero =>
      simp only [List.getElem?_cons_zero, Option.some.injEq] at h
      subst h
      rw [List.set_cons_zero, List.countP_cons, List.countP_cons]
      omega
    | succ n =>
      rw [List.getElem?_cons_succ] at h
      rw [List.set_cons_succ, List.countP_cons, List.countP_cons]
      have := ih n a b h
      omega

theorem ofOutcome_not_loading (o : Outcome String) : (Caller.ofOutcome o).isLoading = false := by
  cases o <;> rfl

theorem enter_finished_pages {k : KeyStoreCache} {key : String} {r : Run String}
    (h : Get.enter k key = .finished r) : k.pages = true := by
  by_cases hp : k.pages = true
  · exact hp
  · rw [enter_blocked key (by simpa using hp)] at h; cases h

theorem enter_loading_pages {k k1 : KeyStoreCache} {key : String}
    (h : Get.enter k key = .loading k1) :
    k.pages = true ∧ k1 = { k with pages := false } ∧ mapGet k.cache key = none := by
  by_cases hp : k.pages = true
  · cases hget : mapGet k.cache key with
    | some e => rw [enter_found hp hget] at h; cases h
    | none =>
      rw [(enter_absent hp hget).1] at h
      cases h
      exact ⟨hp, rfl, rfl⟩
  · rw [enter_blocked key (by simpa using hp)] at h; cases h

/-- A step keeps the exclusion. -/
theorem exclusive_step {w w1 : World} {i : Nat} (h : w.Exclusive) (hs : w.step i = some w1) :
    w1.Exclusive := by
  unfold World.step at hs
  cases hc : w.callers[i]? with
  | none => rw [hc] at hs; cases hs
  | some c =>
    rw [hc] at hs
    cases c with
    | ready key =>
      simp only at hs
      cases he : Get.enter w.cache key with
      | blocked => rw [he] at hs; cases hs
      | finished r =>
        rw [he] at hs
        cases hs
        have hp := enter_finished_pages he
        have hcount := countP_set Caller.isLoading w.callers i _
          (Caller.ofOutcome r.outcome) hc
        simp only [ofOutcome_not_loading, show (Caller.ready key).isLoading = false from rfl,
          Bool.false_eq_true, if_false, Nat.add_zero] at hcount
        have hzero : w.callers.countP Caller.isLoading = 0 := by
          rcases Nat.eq_zero_or_pos (w.callers.countP Caller.isLoading) with h0 | hpos
          · exact h0
          · rw [h.2 hpos] at hp; cases hp
        refine ⟨?_, ?_⟩
        · simp only; omega
        · intro hone; simp only at hone; omega
      | loading k1 =>
        rw [he] at hs
        cases hs
        obtain ⟨hp, hk1, -⟩ := enter_loading_pages he
        have hcount := countP_set Caller.isLoading w.callers i _ (.loading key) hc
        simp only [show (Caller.ready key).isLoading = false from rfl,
          show (Caller.loading key).isLoading = true from rfl, Bool.false_eq_true, if_false,
          if_true, Nat.add_zero] at hcount
        have hzero : w.callers.countP Caller.isLoading = 0 := by
          rcases Nat.eq_zero_or_pos (w.callers.countP Caller.isLoading) with h0 | hpos
          · exact h0
          · rw [h.2 hpos] at hp; cases hp
        refine ⟨?_, ?_⟩
        · simp only; omega
        · intro _; simp only; rw [hk1]
    | loading key =>
      simp only at hs
      cases hs
      have hcount := countP_set Caller.isLoading w.callers i _
        (Caller.ofOutcome (Get.leave w.cache key).outcome) hc
      simp only [ofOutcome_not_loading, show (Caller.loading key).isLoading = true from rfl,
        Bool.false_eq_true, if_false, if_true, Nat.add_zero] at hcount
      have hle := h.1
      refine ⟨?_, ?_⟩
      · simp only; omega
      · intro hone; simp only at hone; omega
    | returned v => simp only at hs; cases hs
    | panicked err => simp only at hs; cases hs
    | blocked => simp only at hs; cases hs

theorem exclusive_run (sched : List Nat) :
    ∀ w : World, w.Exclusive → (w.run sched).Exclusive := by
  induction sched with
  | nil => intro w h; exact h
  | cons i rest ih =>
    intro w h
    unfold World.run
    cases hs : w.step i with
    | none => exact ih w h
    | some w1 => exact ih w1 (exclusive_step h hs)

theorem exclusive_start (k : KeyStoreCache) (keyList : List String) :
    (World.start k keyList).Exclusive := by
  have hzero : (keyList.map Caller.ready).countP Caller.isLoading = 0 := by
    rw [List.countP_eq_zero]
    intro c hc
    obtain ⟨key, -, rfl⟩ := List.mem_map.1 hc
    simp [Caller.isLoading]
  unfold World.Exclusive World.start
  simp only [hzero]
  exact ⟨Nat.zero_le _, fun h => absurd h (by decide)⟩

/-- A goroutine before its receive cannot move while the channel is empty. -/
theorem step_ready_blocked {w : World} {j : Nat} {key : String}
    (hc : w.callers[j]? = some (.ready key)) (hp : w.cache.pages = false) :
    w.step j = none := by
  unfold World.step
  rw [hc]
  simp only [enter_blocked key hp]

end Exclusion

/-! ## Goroutines that call `Get` for the same key -/

section SameKey

variable {load : String → Except String String} {key : String}

theorem drop_token {k : KeyStoreCache} (hp : k.pages = false) :
    ({ k with pages := false } : KeyStoreCache) = k := by
  cases k
  simp only at hp
  subst hp
  rfl

/-- The second step of `Get`, in the state the first step left, ends as `Get` does. -/
theorem leave_eq_get {k0 : KeyStoreCache} (hp : k0.pages = false)
    (hget : mapGet k0.cache key = none) :
    Get.leave k0 key = Get { k0 with pages := true } key := by
  have h := (@enter_absent { k0 with pages := true } key rfl hget).2
  rw [← h]
  congr 1
  exact (drop_token hp).symm

theorem not_loading_of_count_zero {l : List Caller}
    (h : l.countP Caller.isLoading = 0) {c : Caller} (hc : c ∈ l) (k1 : String) :
    c ≠ Caller.loading k1 := by
  intro heq
  have := List.countP_eq_zero.1 h c hc
  rw [heq] at this
  exact this rfl

/-- A step keeps the goroutines of one key in one of the four kinds of world. -/
theorem flight_step {w w1 : World} {i : Nat} (hf : w.Flight load key)
    (hs : w.step i = some w1) : w1.Flight load key := by
  unfold World.step at hs
  cases hc : w.callers[i]? with
  | none => rw [hc] at hs; cases hs
  | some c =>
    rw [hc] at hs
    have hmem : c ∈ w.callers := List.getElem?_mem hc
    rcases hf with ⟨hInv, hkey, hloads, hall⟩ | ⟨hp, hInv, hkey, hloads, hcount, hall⟩ |
      ⟨v, hok, hInv, hkey, hloads, hall⟩ | ⟨err, herr, hp, hloads, hall⟩
    · -- before the call of the loader
      rw [hall c hmem] at hs hc
      simp only [(enter_absent hInv.token (hInv.mapGet_none hkey)).1] at hs
      cases hs
      right; left
      have hzero : w.callers.countP Caller.isLoading = 0 := by
        rw [List.countP_eq_zero]
        intro c1 hc1
        rw [hall c1 hc1]
        simp [Caller.isLoading]
      have hcount := countP_set Caller.isLoading w.callers i _ (Caller.loading key) hc
      simp only [show (Caller.ready key).isLoading = false from rfl,
        show (Caller.loading key).isLoading = true from rfl, Bool.false_eq_true, if_false,
        if_true, Nat.add_zero] at hcount
      refine ⟨rfl, ?_, hkey, by simp only [hloads, List.nil_append], ?_, ?_⟩
      · exact (restore_token hInv.token).symm ▸ hInv
      · simp only; omega
      · intro c1 hc1
        rcases List.mem_or_eq_of_mem_set hc1 with hin | heq
        · exact Or.inl (hall c1 hin)
        · exact Or.inr heq
    · -- during the call of the loader
      rcases hall c hmem with rfl | rfl
      · simp only [enter_blocked key hp] at hs
        cases hs
      · simp only at hs
        cases hs
        have hget : mapGet w.cache.cache key = none := hInv.mapGet_none hkey
        have hcount2 := fun b => countP_set Caller.isLoading w.callers i _ b hc
        have hothers : ∀ b : Caller, b.isLoading = false →
            ∀ c1 ∈ w.callers.set i b, c1 = Caller.ready key ∨ c1 = b := by
          intro b hb c1 hc1
          have hz : (w.callers.set i b).countP Caller.isLoading = 0 := by
            have := hcount2 b
            simp only [show (Caller.loading key).isLoading = true from rfl, hb,
              Bool.false_eq_true, if_false, if_true, Nat.add_zero] at this
            omega
          rcases List.mem_or_eq_of_mem_set hc1 with hin | heq
          · rcases hall c1 hin with h1 | h1
            · exact Or.inl h1
            · exact absurd h1 (not_loading_of_count_zero hz hc1 key)
          · exact Or.inr heq
        rw [leave_eq_get hp hget]
        rcases get_summary hInv key with ⟨x, p, hx, hp1, hpk, -, -⟩ |
          ⟨-, err, herr, hrun⟩ | ⟨-, v, k1, hok, hrun, h1, horder⟩
        · exact absurd (List.mem_map.2 ⟨x, hx, hpk ▸ keyOf_of_page hp1⟩) hkey
        · right; right; right
          rw [hrun]
          exact ⟨err, herr, rfl, hloads, hothers _ rfl⟩
        · right; right; left
          rw [hrun]
          refine ⟨v, hok, h1, ?_, hloads, hothers _ rfl⟩
          simp only [Outcome.state]
          rw [horder]
          obtain ⟨n, hn⟩ : ∃ n, CacheSize = n + 1 := ⟨99, rfl⟩
          rw [hn, List.take_succ_cons]
          exact List.mem_cons_self _ _
    · -- after the loader answered
      rcases hall c hmem with rfl | rfl
      · obtain ⟨x, hx, hkx⟩ := List.mem_map.1 hkey
        have hget := hInv.mapGet_mem hx
        rw [hkx] at hget
        simp only [enter_found hInv.token hget] at hs
        cases hs
        rcases get_summary hInv key with ⟨y, p, hy, hp1, hpk, hok1, hrun⟩ |
          ⟨hno, -⟩ | ⟨hno, -⟩
        · have hv : p.Value = v := by rw [hok] at hok1; cases hok1; rfl
          right; right; left
          rw [hrun]
          refine ⟨v, hok, hInv.hit hy, ?_, by simp only [hloads, List.append_nil], ?_⟩
          · simp only [Outcome.state, order, List.map_cons]
            rw [keyOf_of_page hp1, hpk]
            exact List.mem_cons_self _ _
          · intro c1 hc1
            rcases List.mem_or_eq_of_mem_set hc1 with hin | heq
            · exact hall c1 hin
            · right; rw [heq, ← hv]; rfl
        · exact absurd hkey hno
        · exact absurd hkey hno
      · simp only at hs; cases hs
    · -- after the loader panicked
      rcases hall c hmem with rfl | rfl
      · simp only [enter_blocked key hp] at hs
        cases hs
      · simp only at hs; cases hs

end SameKey

/-! ## Every schedule ends, and how -/

section Ends

variable {load : String → Except String String} {key : String}

theorem flight_run (sched : List Nat) :
    ∀ w : World, w.Flight load key → (w.run sched).Flight load key := by
  induction sched with
  | nil => intro w h; exact h
  | cons i rest ih =>
    intro w h
    unfold World.run
    cases hs : w.step i with
    | none => exact ih w h
    | some w1 => exact ih w1 (flight_step h hs)

theorem flight_start {k : KeyStoreCache} (h : Inv load k) (hkey : key ∉ order k)
    (n : Nat) : (World.start k (List.replicate n key)).Flight load key := by
  left
  refine ⟨h, hkey, rfl, ?_⟩
  intro c hc
  obtain ⟨key1, hk1, rfl⟩ := List.mem_map.1 hc
  rw [List.eq_of_mem_replicate hk1]

theorem step_length {w w1 : World} {i : Nat} (hs : w.step i = some w1) :
    w1.callers.length = w.callers.length := by
  unfold World.step at hs
  cases hc : w.callers[i]? with
  | none => rw [hc] at hs; cases hs
  | some c =>
    rw [hc] at hs
    cases c with
    | ready key1 =>
      simp only at hs
      cases he : Get.enter w.cache key1 with
      | blocked => rw [he] at hs; cases hs
      | finished r => rw [he] at hs; cases hs; simp
      | loading k1 => rw [he] at hs; cases hs; simp
    | loading key1 => simp only at hs; cases hs; simp
    | returned v => simp only at hs; cases hs
    | panicked err => simp only at hs; cases hs
    | blocked => simp only at hs; cases hs

theorem run_length (sched : List Nat) :
    ∀ w : World, (w.run sched).callers.length = w.callers.length := by
  induction sched with
  | nil => intro w; rfl
  | cons i rest ih =>
    intro w
    unfold World.run
    cases hs : w.step i with
    | none => exact ih w
    | some w1 => simp only; rw [ih w1, step_length hs]

/-- A goroutine before its receive can move when the list is in the channel. -/
theorem step_of_ready {w : World} {i : Nat} {key1 : String}
    (hc : w.callers[i]? = some (Caller.ready key1)) (hp : w.cache.pages = true) :
    ∃ w1, w.step i = some w1 := by
  unfold World.step
  rw [hc]
  simp only
  cases hget : mapGet w.cache.cache key1 with
  | some e => rw [enter_found hp hget]; exact ⟨_, rfl⟩
  | none => rw [(enter_absent hp hget).1]; exact ⟨_, rfl⟩

/-- A goroutine in the loader can move: the loader answers or panics. -/
theorem step_of_loading {w : World} {i : Nat} {key1 : String}
    (hc : w.callers[i]? = some (Caller.loading key1)) : ∃ w1, w.step i = some w1 := by
  unfold World.step
  rw [hc]
  exact ⟨_, rfl⟩

/-- When goroutines of one key can no longer move and the loader answers the key, each
has returned the loader's value. -/
theorem flight_stuck {w : World} {v : String} (hf : w.Flight load key)
    (hok : load key = .ok v) (hstuck : ∀ i, w.step i = none) :
    ∀ c ∈ w.callers, c = Caller.returned v := by
  intro c hc
  obtain ⟨i, hi⟩ := List.mem_iff_getElem?.1 hc
  rcases hf with ⟨hInv, -, -, hall⟩ | ⟨-, -, -, -, hcount, -⟩ |
    ⟨v1, hok1, hInv, -, -, hall⟩ | ⟨err, herr, -⟩
  · rw [hall c hc] at hi
    obtain ⟨w1, hw1⟩ := step_of_ready hi hInv.token
    rw [hstuck i] at hw1; cases hw1
  · have hpos : 0 < w.callers.countP Caller.isLoading := by omega
    obtain ⟨c1, hc1, hl⟩ := List.countP_pos_iff.1 hpos
    obtain ⟨j, hj⟩ := List.mem_iff_getElem?.1 hc1
    cases c1 with
    | loading key1 =>
      obtain ⟨w1, hw1⟩ := step_of_loading hj
      rw [hstuck j] at hw1; cases hw1
    | ready key1 => cases hl
    | returned v2 => cases hl
    | panicked err => cases hl
    | blocked => cases hl
  · have hv : v1 = v := by rw [hok] at hok1; cases hok1; rfl
    rcases hall c hc with h1 | h1
    · rw [h1] at hi
      obtain ⟨w1, hw1⟩ := step_of_ready hi hInv.token
      rw [hstuck i] at hw1; cases hw1
    · rw [h1, hv]
  · rw [hok] at herr; cases herr

theorem sum_map_set (f : Caller → Nat) :
    ∀ (l : List Caller) (i : Nat) (a b : Caller), l[i]? = some a →
      ((l.set i b).map f).sum + f a = (l.map f).sum + f b := by
  intro l
  induction l with
  | nil => intro i a b h; simp at h
  | cons x l ih =>
    intro i a b h
    cases i with
    | zero =>
      simp only [List.getElem?_cons_zero, Option.some.injEq] at h
      subst h
      simp only [List.set_cons_zero, List.map_cons, List.sum_cons]
      omega
    | succ n =>
      rw [List.getElem?_cons_succ] at h
      simp only [List.set_cons_succ, List.map_cons, List.sum_cons]
      have := ih n a b h
      omega

theorem ofOutcome_stepsLeft (o : Outcome String) : (Caller.ofOutcome o).stepsLeft = 0 := by
  cases o <;> rfl

/-- Each step uses up one of the steps that are left. -/
theorem step_stepsLeft {w w1 : World} {i : Nat} (hs : w.step i = some w1) :
    w1.stepsLeft < w.stepsLeft := by
  unfold World.step at hs
  unfold World.stepsLeft
  cases hc : w.callers[i]? with
  | none => rw [hc] at hs; cases hs
  | some c =>
    rw [hc] at hs
    have hsum := fun b => sum_map_set Caller.stepsLeft w.callers i c b hc
    cases c with
    | ready key1 =>
      simp only at hs
      cases he : Get.enter w.cache key1 with
      | blocked => rw [he] at hs; cases hs
      | finished r =>
        rw [he] at hs; cases hs
        have := hsum (Caller.ofOutcome r.outcome)
        rw [ofOutcome_stepsLeft] at this
        simp only [Caller.stepsLeft] at this ⊢
        omega
      | loading k1 =>
        rw [he] at hs; cases hs
        have := hsum (Caller.loading key1)
        simp only [Caller.stepsLeft] at this ⊢
        omega
    | loading key1 =>
      simp only at hs
      cases hs
      have := hsum (Caller.ofOutcome (Get.leave w.cache key1).outcome)
      rw [ofOutcome_stepsLeft] at this
      simp only [Caller.stepsLeft] at this ⊢
      omega
    | returned v => simp only at hs; cases hs
    | panicked err => simp only at hs; cases hs
    | blocked => simp only at hs; cases hs

/-- From every world some schedule leads to a world in which no goroutine can move. -/
theorem exists_stuck : ∀ (n : Nat) (w : World), w.stepsLeft ≤ n →
    ∃ sched, ∀ i, (w.run sched).step i = none := by
  intro n
  induction n with
  | zero =>
    intro w hw
    refine ⟨[], fun i => ?_⟩
    cases hs : w.step i with
    | none => exact hs
    | some w1 => have := step_stepsLeft hs; omega
  | succ n ih =>
    intro w hw
    by_cases hstuck : ∀ i, w.step i = none
    · exact ⟨[], hstuck⟩
    · obtain ⟨i, hi⟩ := not_forall.1 hstuck
      cases hs : w.step i with
      | none => exact absurd hs hi
      | some w1 =>
        have hlt := step_stepsLeft hs
        obtain ⟨sched, hsched⟩ := ih w1 (by omega)
        refine ⟨i :: sched, ?_⟩
        intro j
        simp only [World.run, hs]
        exact hsched j

end Ends

/-! ## The claims -/

/-- C1: in every state reachable from `New load` by calls of `Get` and `PageLength`,
the number of cached entries lies between 0 and `CacheSize`, and the index has as
many keys as the recency list has nodes (no key of the index is counted twice). -/
theorem entry_count_bounded (load : String → Except String String) (k : KeyStoreCache)
    (hr : Reachable load k) :
    0 ≤ mapLen k.cache ∧ mapLen k.cache ≤ CacheSize ∧ mapLen k.cache = Len k.list ∧
      (keys k).Nodup ∧ (keys k).length = Len k.list := by
  have h := hr.inv
  refine ⟨Nat.zero_le _, ?_, h.len_eq, h.keys_nodup, ?_⟩
  · rw [h.len_eq]; exact h.bound
  · have := h.len_eq
    unfold mapLen at this
    unfold keys
    rw [List.length_map]; exact this

theorem entry_count_bounded_witness :
    Reachable echoLoad abac ∧ mapLen abac.cache ≤ CacheSize ∧ mapLen abac.cache = Len abac.list :=
  ⟨abac_reachable,
    (entry_count_bounded echoLoad abac abac_reachable).2.1,
    (entry_count_bounded echoLoad abac abac_reachable).2.2.1⟩

/-- C2: in every reachable state the recency list has exactly one node for each key of
the index and none for any other key, no key is held by two nodes, the nodes are
distinct elements that hold pages, and the entry of the index for a key points to the
node of the list whose page has that key. -/
theorem one_node_per_key (load : String → Except String String) (k : KeyStoreCache)
    (hr : Reachable load k) :
    (∀ key, (mapGet k.cache key).isSome →
        (k.list.filter (fun e => keyOf e == key)).length = 1) ∧
    (∀ key, mapGet k.cache key = none →
        (k.list.filter (fun e => keyOf e == key)).length = 0) ∧
    (k.list.map keyOf).Nodup ∧
    (k.list.map Element.addr).Nodup ∧
    (∀ e ∈ k.list, ∃ p, e.Value = .ofPage p) ∧
    (∀ key ptr, mapGet k.cache key = some ptr →
        ∃ e v, ptr = some e ∧ e ∈ k.list ∧ e.Value = .ofPage ⟨key, v⟩) := by
  have h := hr.inv
  have hcount : ∀ key, (k.list.filter (fun e => keyOf e == key)).length =
      (k.list.map keyOf).count key := by
    intro key
    rw [List.count_eq_countP, List.countP_map, List.countP_eq_length_filter]
    rfl
  refine ⟨?_, ?_, h.distinct, h.addrs, ?_, ?_⟩
  · intro key hsome
    rw [hcount]
    apply List.count_eq_one_of_mem h.distinct
    by_contra hnot
    rw [h.mapGet_none hnot] at hsome
    cases hsome
  · intro key hnone
    rw [hcount]
    exact List.count_eq_zero_of_not_mem (h.mapGet_none_iff.1 hnone)
  · intro e he
    obtain ⟨p, hp, -⟩ := h.loaded e he
    exact ⟨p, hp⟩
  · intro key ptr hget
    obtain ⟨x, hx, hkey, rfl⟩ := h.mapGet_some.1 hget
    obtain ⟨p, hp, -⟩ := h.loaded x hx
    refine ⟨x, p.Value, rfl, hx, ?_⟩
    rw [hp, ← hkey, keyOf_of_page hp]

theorem one_node_per_key_witness :
    Reachable echoLoad abac ∧
      (∀ key, (mapGet abac.cache key).isSome →
        (abac.list.filter (fun e => keyOf e == key)).length = 1) :=
  ⟨abac_reachable, (one_node_per_key echoLoad abac abac_reachable).1⟩

/-- C3: in every reachable state, `Get` of a key that is in the index returns the value
of the page held by the node the index points to, without calling the loader, and
afterwards that node is the front of the recency list and still the entry of the key. -/
theorem get_present (load : String → Except String String) (k : KeyStoreCache)
    (key : String) (ptr : Option Element) (hr : Reachable load k)
    (hget : mapGet k.cache key = some ptr) :
    ∃ e v k1, ptr = some e ∧ e.Value = .ofPage ⟨key, v⟩ ∧
      Get k key = ⟨.returned v k1, []⟩ ∧
      Front k1.list = some e ∧ mapGet k1.cache key = some (some e) := by
  have h := hr.inv
  obtain ⟨x, hx, hkey, rfl⟩ := h.mapGet_some.1 hget
  obtain ⟨p, hp, -⟩ := h.loaded x hx
  have hpk : p.Key = key := by rw [← hkey, keyOf_of_page hp]
  have hrun := get_hit h hx hp
  rw [hpk] at hrun
  refine ⟨x, p.Value, _, rfl, ?_, hrun, rfl, ?_⟩
  · rw [hp, ← hpk]
  · have := (h.hit hx).mapGet_mem (x := x) (List.mem_cons_self _ _)
    rwa [hkey] at this

theorem get_present_witness :
    Reachable echoLoad abac ∧
      mapGet abac.cache "b" = some (some ⟨1, .ofPage ⟨"b", "value of b"⟩⟩) ∧
      ∃ e v k1, some (⟨1, .ofPage ⟨"b", "value of b"⟩⟩ : Element) = some e ∧
        e.Value = .ofPage ⟨"b", v⟩ ∧ Get abac "b" = ⟨.returned v k1, []⟩ ∧
        Front k1.list = some e ∧ mapGet k1.cache "b" = some (some e) :=
  ⟨abac_reachable, rfl, get_present echoLoad abac "b" _ abac_reachable rfl⟩

/-- C4: in every reachable state, `Get` of a key that is not in the index and that the
loader answers returns the loader's value after one call of the loader, and afterwards
a node holding the page of the key and the loaded value is the entry of the key in the
index and the front of the recency list. -/
theorem get_absent (load : String → Except String String) (k : KeyStoreCache)
    (key v : String) (hr : Reachable load k) (hget : mapGet k.cache key = none)
    (hl : k.load key = .ok v) :
    ∃ e k1, Get k key = ⟨.returned v k1, [key]⟩ ∧ e.Value = .ofPage ⟨key, v⟩ ∧
      mapGet k1.cache key = some (some e) ∧ Front k1.list = some e := by
  have h := hr.inv
  have hkey := h.mapGet_none_iff.1 hget
  rw [h.loader] at hl
  rcases get_cases h key with ⟨x, p, hx, hp, hpk⟩ | ⟨-, err, hl1⟩ | ⟨-, hroom, w, hl1⟩ |
    ⟨-, hfull, ⟨w, hl1⟩, d, last, hlast⟩
  · exact absurd (List.mem_map.2 ⟨x, hx, hpk ▸ keyOf_of_page hp⟩) hkey
  · rw [hl] at hl1; cases hl1
  · refine ⟨⟨k.next, .ofPage ⟨key, v⟩⟩, _, get_miss h hkey hl hroom, rfl, ?_, rfl⟩
    exact (h.miss hkey hl hroom).mapGet_mem (x := ⟨k.next, .ofPage ⟨key, v⟩⟩)
      (List.mem_cons_self _ _)
  · refine ⟨⟨k.next, .ofPage ⟨key, v⟩⟩, _, get_evict h hkey hl hfull hlast, rfl, ?_, rfl⟩
    exact (h.evict hkey hl hlast).mapGet_mem (x := ⟨k.next, .ofPage ⟨key, v⟩⟩)
      (List.mem_cons_self _ _)

theorem get_absent_witness :
    Reachable echoLoad abac ∧ mapGet abac.cache "d" = none ∧
      abac.load "d" = .ok "value of d" ∧
      ∃ e k1, Get abac "d" = ⟨.returned "value of d" k1, ["d"]⟩ ∧
        e.Value = .ofPage ⟨"d", "value of d"⟩ ∧
        mapGet k1.cache "d" = some (some e) ∧ Front k1.list = some e :=
  ⟨abac_reachable, rfl, rfl, get_absent echoLoad abac "d" "value of d" abac_reachable rfl rfl⟩

/-- C5: in every reachable state whose index holds `CacheSize` entries, a `Get` of a key
that is not in the index, once its load has succeeded, removes exactly one entry, the
one at the back of the recency list, from the index and from the list, keeps every
other entry and the order of the other nodes, and leaves `CacheSize` entries. -/
theorem evict_when_full (load : String → Except String String) (k : KeyStoreCache)
    (key v : String) (hr : Reachable load k) (hfull : mapLen k.cache = CacheSize)
    (hget : mapGet k.cache key = none) (hl : k.load key = .ok v) :
    ∃ k1 last, (Get k key).outcome = .returned v k1 ∧ Back k.list = some last ∧
      mapGet k.cache (keyOf last) = some (some last) ∧
      evicted k k1 = [keyOf last] ∧
      mapGet k1.cache (keyOf last) = none ∧ last ∉ k1.list ∧
      (∀ other, other ≠ keyOf last → other ≠ key →
        mapGet k1.cache other = mapGet k.cache other) ∧
      (∀ e ∈ k.list, e ≠ last → e ∈ k1.list) ∧
      k1.list.tail = k.list.dropLast ∧
      mapLen k1.cache = CacheSize ∧ Len k1.list = CacheSize := by
  have h := hr.inv
  have hkey := h.mapGet_none_iff.1 hget
  rw [h.loader] at hl
  have hlenList : CacheSize ≤ Len k.list := by rw [← h.len_eq, hfull]
  rcases get_cases h key with ⟨x, p, hx, hp, hpk⟩ | ⟨-, err, hl1⟩ | ⟨-, hroom, -⟩ |
    ⟨-, -, -, d, last, hlast⟩
  · exact absurd (List.mem_map.2 ⟨x, hx, hpk ▸ keyOf_of_page hp⟩) hkey
  · rw [hl] at hl1; cases hl1
  · omega
  · have hmem : last ∈ k.list := by rw [hlast]; simp
    have hnd : (d ++ [last]).Nodup := hlast ▸ List.Nodup.of_map _ h.addrs
    have hnotd : last ∉ d := fun hin =>
      (List.nodup_append.1 hnd).2.2 hin (List.mem_singleton_self last)
    have hne : keyOf last ≠ key := fun heq => hkey (heq ▸ List.mem_map_of_mem keyOf hmem)
    have h1 := h.evict hkey hl hlast
    have hrun := get_evict h hkey hl hlenList hlast
    refine ⟨_, last, by rw [hrun], ?_, h.mapGet_mem hmem,
      evicted_of_evict h hkey _ _ _ hlast, ?_, ?_, ?_, ?_, ?_, ?_, ?_⟩
    · unfold Back; rw [hlast]; simp
    · simp only
      rw [mapGet_cons_ne _ _ hne, mapGet_mapDelete_self]
    · simp only [List.mem_cons, not_or]
      refine ⟨?_, hnotd⟩
      intro heq
      have := h.fresh last hmem
      rw [heq] at this
      exact absurd this (Nat.lt_irrefl _)
    · intro other ho1 ho2
      simp only
      rw [mapGet_cons_ne _ _ ho2, mapGet_mapDelete_ne _ ho1]
    · intro e he hne1
      rw [hlast] at he
      rcases List.mem_append.1 he with hin | hin
      · exact List.mem_cons_of_mem _ hin
      · exact absurd (List.mem_singleton.1 hin) hne1
    · simp only [List.tail_cons]
      rw [hlast, List.dropLast_concat]
    · rw [h1.len_eq]
      unfold Len at hlenList ⊢
      have hb := h.bound
      rw [hlast] at hb hlenList
      simp only [List.length_append, List.length_cons, List.length_nil] at hb hlenList ⊢
      omega
    · unfold Len at hlenList ⊢
      have hb := h.bound
      rw [hlast] at hb hlenList
      simp only [List.length_append, List.length_cons, List.length_nil] at hb hlenList ⊢
      omega

theorem evict_when_full_witness :
    Reachable echoLoad fullCache ∧ mapLen fullCache.cache = CacheSize ∧
      mapGet fullCache.cache (keyN CacheSize) = none ∧
      ∃ k1 last, (Get fullCache (keyN CacheSize)).outcome =
          .returned ("value of " ++ keyN CacheSize) k1 ∧
        Back fullCache.list = some last ∧ evicted fullCache k1 = [keyOf last] ∧
        mapLen k1.cache = CacheSize :=
  ⟨fullCache_reachable, fullCache_len, fullCache_absent,
    match evict_when_full echoLoad fullCache (keyN CacheSize) _ fullCache_reachable
      fullCache_len fullCache_absent fullCache_load with
    | ⟨k1, last, h1, h2, _, h4, _, _, _, _, _, h10, _⟩ => ⟨k1, last, h1, h2, h4, h10⟩⟩

/-- C6: in a sequence of `Get`s of distinct keys that the loader answers, made on a
new cache, every call from number `CacheSize` on (counting from 0) evicts exactly one
key, and that key is the one of the index accessed least recently: each other key of
the index was accessed by a later call.  It is the key of the call made `CacheSize`
calls before. -/
theorem lru_eviction (load : String → Except String String) (keyList : List String)
    (i : Nat) (hnd : keyList.Nodup) (hload : ∀ key ∈ keyList, ∃ v, load key = .ok v)
    (hi : CacheSize ≤ i) (hlt : i < keyList.length) :
    ∃ vs k key v k1 gone,
      GetAll (New load) (keyList.take i) = some (vs, k) ∧
      keyList[i]? = some key ∧
      (Get k key).outcome = .returned v k1 ∧
      evicted k k1 = [gone] ∧
      gone ∈ keys k ∧
      (∀ c ∈ keys k, c ≠ gone →
        callsSince (keyList.take i) c < callsSince (keyList.take i) gone) ∧
      keyList[i - CacheSize]? = some gone := by
  obtain ⟨vs, k, hrun, hk, horder⟩ := order_after_distinct i hnd hload
  have hkeyAt : keyList[i]? = some keyList[i] := List.getElem?_eq_getElem hlt
  have hhist : (keyList.take i).length = i := by
    rw [List.length_take]; omega
  have hkey : keyList[i] ∉ order k := by
    rw [horder]
    intro hmem
    exact not_mem_take_of_nodup hnd hkeyAt (List.mem_reverse.1 (List.mem_of_mem_take hmem))
  have hlen : Len k.list = CacheSize := by
    have := congrArg List.length horder
    simp only [order, List.length_map, List.length_take, List.length_reverse] at this
    unfold Len; omega
  obtain ⟨v, hv⟩ := hload keyList[i] (List.getElem_mem hlt)
  rcases get_cases hk keyList[i] with ⟨x, p, hx, hp, hpk⟩ | ⟨-, err, hl1⟩ | ⟨-, hroom, -⟩ |
    ⟨-, hfull, -, d, last, hlast⟩
  · exact absurd (List.mem_map.2 ⟨x, hx, hpk ▸ keyOf_of_page hp⟩) hkey
  · rw [hv] at hl1; cases hl1
  · omega
  · have hrun2 := get_evict hk hkey hv hfull hlast
    have hod := order_of_concat hlast
    have hT : (keyList.take i).reverse.take CacheSize = d.map keyOf ++ [keyOf last] := by
      rw [← horder, hod]
    have hdlen : (d.map keyOf).length + 1 = CacheSize := by
      have := congrArg List.length hod
      simp only [order, List.length_map, List.length_append, List.length_cons,
        List.length_nil] at this ⊢
      unfold Len at hlen; omega
    refine ⟨vs, k, keyList[i], v, _, keyOf last, hrun, hkeyAt, by rw [hrun2],
      evicted_of_evict hk hkey _ _ _ hlast, ?_, ?_, ?_⟩
    · apply hk.keys_perm.mem_iff.2
      rw [hod]; simp
    · intro c hc hne
      unfold callsSince
      apply indexOf_lt_of_take (List.nodup_reverse.2 ((List.take_sublist i keyList).nodup hnd))
        hT _ hne
      rw [← hod]
      exact hk.keys_perm.mem_iff.1 hc
    · have h1 : ((keyList.take i).reverse.take CacheSize)[(d.map keyOf).length]? =
          some (keyOf last) := by
        rw [hT]; exact List.getElem?_concat_length _ _
      rw [List.getElem?_take_of_lt (by omega),
        List.getElem?_reverse (by omega), hhist,
        List.getElem?_take_of_lt (by omega)] at h1
      rw [← h1]
      congr 1
      omega

theorem lru_eviction_witness :
    (manyKeys (CacheSize + 1)).Nodup ∧ CacheSize < (manyKeys (CacheSize + 1)).length ∧
      ∃ vs k key v k1 gone,
        GetAll (New echoLoad) ((manyKeys (CacheSize + 1)).take CacheSize) = some (vs, k) ∧
        (manyKeys (CacheSize + 1))[CacheSize]? = some key ∧
        (Get k key).outcome = .returned v k1 ∧
        evicted k k1 = [gone] ∧
        gone ∈ keys k ∧
        (∀ c ∈ keys k, c ≠ gone →
          callsSince ((manyKeys (CacheSize + 1)).take CacheSize) c <
            callsSince ((manyKeys (CacheSize + 1)).take CacheSize) gone) ∧
        (manyKeys (CacheSize + 1))[CacheSize - CacheSize]? = some gone :=
  ⟨manyKeys_nodup _, by rw [manyKeys_length]; exact Nat.lt_succ_self _,
    lru_eviction echoLoad (manyKeys (CacheSize + 1)) CacheSize (manyKeys_nodup _)
      (fun key _ => echoLoad_ok key) (Nat.le_refl _)
      (by rw [manyKeys_length]; exact Nat.lt_succ_self _)⟩

/-- C7: with the capacity 2 (`Get` with 2 for its constant `CacheSize`) and a new cache,
the calls `Get("a")`, `Get("b")`, `Get("a")`, `Get("c")`, whose loads succeed, load a,
load b, hit a and move it to the front, then miss on c, load it and evict b, the least
recently used key; the final contents are the keys a and c, and `PageLength` returns 2.
With `CacheSize` for the capacity, `Get.withSize` is `Get`. -/
theorem scenario_capacity_two (load : String → Except String String) (va vb vc : String)
    (ha : load "a" = .ok va) (hb : load "b" = .ok vb) (hc : load "c" = .ok vc) :
    (∀ k key, Get.withSize CacheSize k key = Get k key) ∧
    ∃ k1 k2 k3 k4,
      Get.withSize 2 (New load) "a" = ⟨.returned va k1, ["a"]⟩ ∧ order k1 = ["a"] ∧
      Get.withSize 2 k1 "b" = ⟨.returned vb k2, ["b"]⟩ ∧ order k2 = ["b", "a"] ∧
      Get.withSize 2 k2 "a" = ⟨.returned va k3, []⟩ ∧ order k3 = ["a", "b"] ∧
      k3.cache = k2.cache ∧
      Get.withSize 2 k3 "c" = ⟨.returned vc k4, ["c"]⟩ ∧ evicted k3 k4 = ["b"] ∧
      order k4 = ["c", "a"] ∧ (keys k4).Perm ["a", "c"] ∧
      mapGet k4.cache "a" = some (some ⟨0, .ofPage ⟨"a", va⟩⟩) ∧
      mapGet k4.cache "b" = none ∧
      mapGet k4.cache "c" = some (some ⟨2, .ofPage ⟨"c", vc⟩⟩) ∧
      PageLength k4 = ⟨.returned 2 k4, []⟩ := by
  refine ⟨fun _ _ => rfl, ?_⟩
  refine ⟨{ cache := [("a", some ⟨0, .ofPage ⟨"a", va⟩⟩)], pages := true, load := load,
            list := [⟨0, .ofPage ⟨"a", va⟩⟩], next := 1 },
          { cache := [("b", some ⟨1, .ofPage ⟨"b", vb⟩⟩), ("a", some ⟨0, .ofPage ⟨"a", va⟩⟩)],
            pages := true, load := load,
            list := [⟨1, .ofPage ⟨"b", vb⟩⟩, ⟨0, .ofPage ⟨"a", va⟩⟩], next := 2 },
          { cache := [("b", some ⟨1, .ofPage ⟨"b", vb⟩⟩), ("a", some ⟨0, .ofPage ⟨"a", va⟩⟩)],
            pages := true, load := load,
            list := [⟨0, .ofPage ⟨"a", va⟩⟩, ⟨1, .ofPage ⟨"b", vb⟩⟩], next := 2 },
          { cache := [("c", some ⟨2, .ofPage ⟨"c", vc⟩⟩), ("a", some ⟨0, .ofPage ⟨"a", va⟩⟩)],
            pages := true, load := load,
            list := [⟨2, .ofPage ⟨"c", vc⟩⟩, ⟨0, .ofPage ⟨"a", va⟩⟩], next := 3 },
          ?_, rfl, ?_, rfl, ?_, rfl, rfl, ?_, ?_, rfl, ?_, ?_, ?_, ?_, ?_⟩
  · simp [Get.withSize, Get.store, New, recv, send, mapGet, mapSet, mapDelete, mapLen,
      PushFront, Front, ha]
  · simp [Get.withSize, Get.store, recv, send, mapGet, mapSet, mapDelete, mapLen,
      PushFront, Front, hb, List.lookup]
  · simp [Get.withSize, Get.found, recv, send, mapGet, MoveToFront, GoValue.assertPage,
      List.lookup]
  · simp [Get.withSize, Get.store, recv, send, mapGet, mapSet, mapDelete, mapLen,
      PushFront, Front, Back, Remove, GoValue.assertPage, hc, List.lookup]
  · simp [evicted, keys]
  · simp [keys]; decide
  · simp [mapGet, List.lookup]
  · simp [mapGet, List.lookup]
  · simp [mapGet, List.lookup]
  · simp [PageLength, recv, send, Len]

theorem scenario_capacity_two_witness :
    echoLoad "a" = .ok "value of a" ∧ echoLoad "b" = .ok "value of b" ∧
      echoLoad "c" = .ok "value of c" ∧
      (∀ k key, Get.withSize CacheSize k key = Get k key) ∧
      ∃ k1 k2 k3 k4,
        Get.withSize 2 (New echoLoad) "a" = ⟨.returned "value of a" k1, ["a"]⟩ ∧
        order k1 = ["a"] ∧
        Get.withSize 2 k1 "b" = ⟨.returned "value of b" k2, ["b"]⟩ ∧ order k2 = ["b", "a"] ∧
        Get.withSize 2 k2 "a" = ⟨.returned "value of a" k3, []⟩ ∧ order k3 = ["a", "b"] ∧
        k3.cache = k2.cache ∧
        Get.withSize 2 k3 "c" = ⟨.returned "value of c" k4, ["c"]⟩ ∧
        evicted k3 k4 = ["b"] ∧
        order k4 = ["c", "a"] ∧ (keys k4).Perm ["a", "c"] ∧
        mapGet k4.cache "a" = some (some ⟨0, .ofPage ⟨"a", "value of a"⟩⟩) ∧
        mapGet k4.cache "b" = none ∧
        mapGet k4.cache "c" = some (some ⟨2, .ofPage ⟨"c", "value of c"⟩⟩) ∧
        PageLength k4 = ⟨.returned 2 k4, []⟩ :=
  ⟨rfl, rfl, rfl, scenario_capacity_two echoLoad _ _ _ rfl rfl rfl⟩

/-- C8: in every reachable state and for every key of the index there is one value that
each of any number of `Get`s of the key, made one after the other, returns; the calls
leave the number of entries of the index and of the recency list, and the index
itself, unchanged. -/
theorem repeated_get (load : String → Except String String) (k : KeyStoreCache)
    (key : String) (ptr : Option Element) (hr : Reachable load k)
    (hget : mapGet k.cache key = some ptr) :
    ∃ v, ∀ n, ∃ k1, GetAll k (List.replicate n key) = some (List.replicate n v, k1) ∧
      mapLen k1.cache = mapLen k.cache ∧ Len k1.list = Len k.list ∧
      k1.cache = k.cache := by
  have h := hr.inv
  obtain ⟨x, hx, hkey, -⟩ := h.mapGet_some.1 hget
  obtain ⟨p, hp, -⟩ := h.loaded x hx
  have hpk : p.Key = key := by rw [← hkey, keyOf_of_page hp]
  refine ⟨p.Value, fun n => ?_⟩
  obtain ⟨k1, hrun, -, hcache, hlen⟩ := repeat_hit hp n k h hx
  rw [hpk] at hrun
  exact ⟨k1, hrun, by rw [hcache], hlen, hcache⟩

theorem repeated_get_witness :
    Reachable echoLoad abac ∧
      mapGet abac.cache "b" = some (some ⟨1, .ofPage ⟨"b", "value of b"⟩⟩) ∧
      ∃ v, ∀ n, ∃ k1,
        GetAll abac (List.replicate n "b") = some (List.replicate n v, k1) ∧
        mapLen k1.cache = mapLen abac.cache ∧ Len k1.list = Len abac.list ∧
        k1.cache = abac.cache :=
  ⟨abac_reachable, rfl, repeated_get echoLoad abac "b" _ abac_reachable rfl⟩

/-- C9 fails on the code: when the load of "x" panics in `Get("x")` on a new cache, the
panic leaves `Get` before the list is sent back, so the channel `pages` is left empty:
`PageLength`, which returned before the call, blocks after it. -/
theorem load_failure_availability_counterexample :
    failX "x" = .error "no x" ∧
      Get (New failX) "x" = ⟨.panicked "no x" afterFailure, ["x"]⟩ ∧
      (New failX).pages = true ∧ afterFailure.pages = false ∧
      (PageLength (New failX)).outcome = .returned 0 (New failX) ∧
      (PageLength afterFailure).outcome = .blocked afterFailure :=
  ⟨rfl, rfl, rfl, rfl, rfl, rfl⟩

/-- C9, amended: in every reachable state, when the load of a key fails, `Get` of the
key panics with the error of the loader, after one call of the loader; it creates no
entry and leaves the index and the recency list as they were before the call. -/
theorem load_failure_leaves_entries (load : String → Except String String) (k : KeyStoreCache)
    (key err : String) (hr : Reachable load k) (hl : k.load key = .error err) :
    ∃ k1, Get k key = ⟨.panicked err k1, [key]⟩ ∧ k1.cache = k.cache ∧
      k1.list = k.list ∧ k1.next = k.next ∧ mapGet k1.cache key = none ∧
      key ∉ order k1 := by
  have h := hr.inv
  rw [h.loader] at hl
  have hkey := not_cached_of_error h hl
  exact ⟨{ k with pages := false }, get_fail h hkey hl, rfl, rfl, rfl,
    h.mapGet_none hkey, hkey⟩

theorem load_failure_leaves_entries_witness :
    Reachable failX (New failX) ∧ (New failX).load "x" = .error "no x" ∧
      ∃ k1, Get (New failX) "x" = ⟨.panicked "no x" k1, ["x"]⟩ ∧
        k1.cache = (New failX).cache ∧ k1.list = (New failX).list ∧
        k1.next = (New failX).next ∧ mapGet k1.cache "x" = none ∧ "x" ∉ order k1 :=
  ⟨Reachable.new, rfl, load_failure_leaves_entries failX (New failX) "x" "no x" Reachable.new rfl⟩

/-- C10 fails on the code: after the load of "x" has panicked in `Get("x")` on a new
cache, `PageLength` blocks instead of returning the count, and a second `Get("x")`
blocks without calling the loader. -/
theorem retry_blocked_counterexample :
    failX "x" = .error "no x" ∧
      (Get (New failX) "x").outcome = .panicked "no x" afterFailure ∧
      PageLength afterFailure = ⟨.blocked afterFailure, []⟩ ∧
      Get afterFailure "x" = ⟨.blocked afterFailure, []⟩ :=
  ⟨rfl, rfl, rfl, rfl⟩

/-- C10, amended: in every reachable state, when the load of a key fails during `Get`,
the call panics with the error of the loader and does not send the list back: the
index and the recency list hold as many entries afterwards as before and none for the
key, but `PageLength`, which returned the count before the call, blocks after it, and
every later `Get`, of the key or of another, blocks at its receive without calling the
loader; the load is not tried again. -/
theorem no_retry_after_load_failure (load : String → Except String String)
    (k : KeyStoreCache) (key err : String) (hr : Reachable load k)
    (hl : k.load key = .error err) :
    ∃ k1, Get k key = ⟨.panicked err k1, [key]⟩ ∧ k1.pages = false ∧
      mapLen k1.cache = mapLen k.cache ∧ Len k1.list = Len k.list ∧
      mapGet k1.cache key = none ∧
      PageLength k = ⟨.returned (Len k.list) k, []⟩ ∧
      PageLength k1 = ⟨.blocked k1, []⟩ ∧
      Get k1 key = ⟨.blocked k1, []⟩ ∧
      ∀ key2, Get k1 key2 = ⟨.blocked k1, []⟩ := by
  have h := hr.inv
  rw [h.loader] at hl
  have hkey := not_cached_of_error h hl
  have hblocked : ∀ key2, Get { k with pages := false } key2 =
      ⟨.blocked { k with pages := false }, []⟩ := by
    intro key2
    unfold Get recv
    simp
  refine ⟨{ k with pages := false }, get_fail h hkey hl, rfl, rfl, rfl,
    h.mapGet_none hkey, pageLength_eq h, ?_, hblocked key, hblocked⟩
  unfold PageLength recv
  simp

theorem no_retry_after_load_failure_witness :
    Reachable failX afterA ∧ afterA.load "x" = .error "no x" ∧
      ∃ k1, Get afterA "x" = ⟨.panicked "no x" k1, ["x"]⟩ ∧ k1.pages = false ∧
        mapLen k1.cache = mapLen afterA.cache ∧ Len k1.list = Len afterA.list ∧
        mapGet k1.cache "x" = none ∧
        PageLength afterA = ⟨.returned (Len afterA.list) afterA, []⟩ ∧
        PageLength k1 = ⟨.blocked k1, []⟩ ∧
        Get k1 "x" = ⟨.blocked k1, []⟩ ∧
        ∀ key2, Get k1 key2 = ⟨.blocked k1, []⟩ :=
  ⟨afterA_reachable, rfl,
    no_retry_after_load_failure failX afterA "x" "no x" afterA_reachable rfl⟩

/-- C11: in every reachable state a call of `Get` calls the loader exactly once, with
the key, when the key is not in the index (whatever the loader answers), and not at
all when the key is in the index. -/
theorem loader_calls (load : String → Except String String) (k : KeyStoreCache)
    (key : String) (hr : Reachable load k) :
    (mapGet k.cache key = none → (Get k key).loads = [key]) ∧
      ((mapGet k.cache key).isSome → (Get k key).loads = []) := by
  have h := hr.inv
  refine ⟨loads_of_absent k key h.token, ?_⟩
  intro hsome
  rcases get_summary h key with ⟨x, p, -, -, -, -, hrun⟩ | ⟨hkey, -⟩ | ⟨hkey, -⟩
  · rw [hrun]
  · rw [h.mapGet_none hkey] at hsome; cases hsome
  · rw [h.mapGet_none hkey] at hsome; cases hsome

theorem loader_calls_witness :
    Reachable echoLoad abac ∧ (Get abac "d").loads = ["d"] ∧ (Get abac "b").loads = [] :=
  ⟨abac_reachable, (loader_calls echoLoad abac "d" abac_reachable).1 rfl,
    (loader_calls echoLoad abac "b" abac_reachable).2 rfl⟩

/-- C12: in every reachable state `PageLength` returns the number of entries, which is
the number of keys of the index and the number of nodes of the list and lies between
0 and `CacheSize`; it calls no loader and leaves the state, so the index and the
recency order, as it found it. -/
theorem pageLength_count (load : String → Except String String) (k : KeyStoreCache)
    (hr : Reachable load k) :
    ∃ n, PageLength k = ⟨.returned n k, []⟩ ∧ n = mapLen k.cache ∧
      n = (keys k).length ∧ (keys k).Nodup ∧ n = Len k.list ∧ 0 ≤ n ∧ n ≤ CacheSize := by
  have h := hr.inv
  refine ⟨Len k.list, pageLength_eq h, h.len_eq.symm, ?_, h.keys_nodup, rfl,
    Nat.zero_le _, h.bound⟩
  have := h.len_eq
  unfold mapLen at this
  unfold keys
  rw [List.length_map, this]

theorem pageLength_count_witness :
    Reachable echoLoad abac ∧
      ∃ n, PageLength abac = ⟨.returned n abac, []⟩ ∧ n = mapLen abac.cache ∧
        n = (keys abac).length ∧ (keys abac).Nodup ∧ n = Len abac.list ∧ 0 ≤ n ∧
        n ≤ CacheSize :=
  ⟨abac_reachable, pageLength_count echoLoad abac abac_reachable⟩

/-- C17: with a loader that answers every key (and is a function of the key), in every
reachable state `Get` of any key returns the value the loader gives for the key,
whether the call hits or misses. -/
theorem get_refines_load (load : String → Except String String) (k : KeyStoreCache)
    (key : String) (hr : Reachable load k) (htotal : ∀ key1, ∃ v, load key1 = .ok v) :
    ∃ v k1, load key = .ok v ∧ (Get k key).outcome = .returned v k1 := by
  have h := hr.inv
  rcases get_summary h key with ⟨x, p, -, -, -, hok, hrun⟩ | ⟨-, err, herr, -⟩ |
    ⟨-, v, k1, hok, hrun, -⟩
  · exact ⟨p.Value, _, hok, by rw [hrun]⟩
  · obtain ⟨v, hv⟩ := htotal key
    rw [hv] at herr; cases herr
  · exact ⟨v, k1, hok, by rw [hrun]⟩

theorem get_refines_load_witness :
    Reachable echoLoad abac ∧ (∀ key1, ∃ v, echoLoad key1 = .ok v) ∧
      (∃ v k1, echoLoad "a" = .ok v ∧ (Get abac "a").outcome = .returned v k1) ∧
      ∃ v k1, echoLoad "z" = .ok v ∧ (Get abac "z").outcome = .returned v k1 :=
  ⟨abac_reachable, echoLoad_ok,
    get_refines_load echoLoad abac "a" abac_reachable echoLoad_ok,
    get_refines_load echoLoad abac "z" abac_reachable echoLoad_ok⟩

/-- C18: in every reachable state no step of `Get` other than the call of the loader
can panic: the pointer found in the index is not nil and its node holds a page, when
`len(k.cache) >= CacheSize` the back of the list is not nil and holds a page, and
every panic that leaves `Get` is the panic of the loader, called for a key that is not
in the index. -/
theorem no_runtime_panic (load : String → Except String String) (k : KeyStoreCache)
    (key : String) (hr : Reachable load k) :
    (∀ ptr, mapGet k.cache key = some ptr →
        ∃ e p, ptr = some e ∧ e.Value.assertPage = some p) ∧
      (CacheSize ≤ mapLen k.cache →
        ∃ last q, Back k.list = some last ∧ last.Value.assertPage = some q) ∧
      (∀ err k1, (Get k key).outcome = .panicked err k1 →
        mapGet k.cache key = none ∧ k.load key = .error err) := by
  have h := hr.inv
  refine ⟨?_, ?_, ?_⟩
  · intro ptr hget
    obtain ⟨x, hx, -, rfl⟩ := h.mapGet_some.1 hget
    obtain ⟨p, hp, -⟩ := h.loaded x hx
    exact ⟨x, p, rfl, by rw [hp]; rfl⟩
  · intro hfull
    have hne : k.list ≠ [] := by
      intro hnil
      rw [h.len_eq, hnil] at hfull
      exact absurd hfull (by decide)
    have hmem : k.list.getLast hne ∈ k.list := List.getLast_mem hne
    obtain ⟨q, hq, -⟩ := h.loaded _ hmem
    refine ⟨k.list.getLast hne, q, ?_, by rw [hq]; rfl⟩
    unfold Back
    exact List.getLast?_eq_getLast _ hne
  · intro err k1 hpanic
    rcases get_summary h key with ⟨x, p, -, -, -, -, hrun⟩ | ⟨hkey, err1, herr, hrun⟩ |
      ⟨-, v, k2, -, hrun, -⟩
    · rw [hrun] at hpanic; cases hpanic
    · rw [hrun] at hpanic
      cases hpanic
      exact ⟨h.mapGet_none hkey, by rw [h.loader]; exact herr⟩
    · rw [hrun] at hpanic; cases hpanic

theorem no_runtime_panic_witness :
    Reachable echoLoad fullCache ∧ CacheSize ≤ mapLen fullCache.cache ∧
      ∃ last q, Back fullCache.list = some last ∧ last.Value.assertPage = some q :=
  ⟨fullCache_reachable, Nat.le_of_eq fullCache_len.symm,
    (no_runtime_panic echoLoad fullCache "a" fullCache_reachable).2.1
      (Nat.le_of_eq fullCache_len.symm)⟩

/-- C19: in every reachable state a `Get` of a key of the index changes only the place
of the node of the key: the index, and so the set of keys and every pointer, is
unchanged, the list has the same nodes with the same values, the node of the key is
first, and the other nodes, and so the other keys, keep their order. -/
theorem hit_frame (load : String → Except String String) (k : KeyStoreCache)
    (key : String) (ptr : Option Element) (hr : Reachable load k)
    (hget : mapGet k.cache key = some ptr) :
    ∃ e v k1, ptr = some e ∧ Get k key = ⟨.returned v k1, []⟩ ∧
      k1.cache = k.cache ∧ k1.list.Perm k.list ∧ k1.list.head? = some e ∧
      k1.list.filter (fun x => x != e) = k.list.filter (fun x => x != e) ∧
      (order k1).filter (fun c => c != key) = (order k).filter (fun c => c != key) := by
  have h := hr.inv
  obtain ⟨x, hx, hkey, rfl⟩ := h.mapGet_some.1 hget
  obtain ⟨p, hp, -⟩ := h.loaded x hx
  have hpk : p.Key = key := by rw [← hkey, keyOf_of_page hp]
  have hrun := get_hit h hx hp
  rw [hpk] at hrun
  have hnd : k.list.Nodup := List.Nodup.of_map _ h.addrs
  have herase : k.list.erase x = k.list.filter (fun y => y != x) :=
    List.Nodup.erase_eq_filter hnd x
  have hkeys : k.list.filter (fun y => keyOf y != key) = k.list.erase x := by
    rw [← hkey]; exact filter_of_nodup_map keyOf k.list x h.distinct hx
  refine ⟨x, p.Value, _, rfl, hrun, rfl, (List.perm_cons_erase hx).symm, rfl, ?_, ?_⟩
  · simp only
    rw [List.filter_cons_of_neg (by simp), herase, List.filter_filter]
    simp
  · simp only [order, List.map_cons, List.filter_map]
    rw [List.filter_cons_of_neg (by simp [hkey])]
    have hcomp : ((fun c : String => c != key) ∘ keyOf) = fun y => keyOf y != key := rfl
    rw [List.filter_map, hcomp, hkeys, ← hkeys, List.filter_filter]
    simp

theorem hit_frame_witness :
    Reachable echoLoad abac ∧
      mapGet abac.cache "b" = some (some ⟨1, .ofPage ⟨"b", "value of b"⟩⟩) ∧
      ∃ e v k1, some (⟨1, .ofPage ⟨"b", "value of b"⟩⟩ : Element) = some e ∧
        Get abac "b" = ⟨.returned v k1, []⟩ ∧
        k1.cache = abac.cache ∧ k1.list.Perm abac.list ∧ k1.list.head? = some e ∧
        k1.list.filter (fun x => x != e) = abac.list.filter (fun x => x != e) ∧
        (order k1).filter (fun c => c != "b") = (order abac).filter (fun c => c != "b") :=
  ⟨abac_reachable, rfl, hit_frame echoLoad abac "b" _ abac_reachable rfl⟩

/-- C13: on a new cache, after the calls of `Get` of any sequence of keys (any order,
repeats allowed) that the loader answers and that has no more than `CacheSize`
distinct keys, no call has evicted a key, the index holds as many entries as there are
distinct keys, and each key of the sequence is in the index with the value the loader
gives for it.  (The calls of `Get` run one at a time between the receive and the send
on `pages`, so every order of completion is one such sequence.) -/
theorem no_lost_entries (load : String → Except String String) (keyList : List String)
    (hfit : keyList.dedup.length ≤ CacheSize)
    (hload : ∀ key ∈ keyList, ∃ v, load key = .ok v) :
    ∃ vs k, GetAll (New load) keyList = some (vs, k) ∧
      evictions (New load) keyList = [] ∧
      mapLen k.cache = keyList.dedup.length ∧
      ∀ key ∈ keyList, ∃ e v, mapGet k.cache key = some (some e) ∧
        e.Value = .ofPage ⟨key, v⟩ ∧ load key = .ok v := by
  obtain ⟨vs, k, hrun, h, horder, -⟩ := getAll_new keyList hload
  have hlen : (mostRecentFirst keyList).length ≤ CacheSize := by
    rw [mostRecentFirst_length]; exact hfit
  rw [List.take_of_length_le hlen] at horder
  refine ⟨vs, k, hrun, ?_, ?_, ?_⟩
  · exact evictions_nil keyList [] (New load) (Inv.new load) rfl hload
      (by rw [List.nil_append]; exact hfit)
  · rw [h.len_eq]
    have := congrArg List.length horder
    rw [mostRecentFirst_length] at this
    rw [← this]
    simp [Len, order]
  · intro key hkey
    apply h.entry
    rw [horder, mem_mostRecentFirst]
    exact hkey

theorem no_lost_entries_witness :
    ["a", "b", "a", "c"].dedup.length ≤ CacheSize ∧
      ∃ vs k, GetAll (New echoLoad) ["a", "b", "a", "c"] = some (vs, k) ∧
        evictions (New echoLoad) ["a", "b", "a", "c"] = [] ∧
        mapLen k.cache = ["a", "b", "a", "c"].dedup.length ∧
        ∀ key ∈ ["a", "b", "a", "c"], ∃ e v, mapGet k.cache key = some (some e) ∧
          e.Value = .ofPage ⟨key, v⟩ ∧ echoLoad key = .ok v :=
  ⟨by decide, no_lost_entries echoLoad ["a", "b", "a", "c"] (by decide)
    (fun key _ => echoLoad_ok key)⟩

/-- C16: after any sequence of `Get`s on a new cache, with a loader that answers the
keys of the calls, the recency order read front to back is the distinct keys of the
sequence, most recent access first, cut to the first `CacheSize` keys; each call has
returned the loader's value, and each node of the list and each entry of the index
holds the value the loader gives for its key. -/
theorem recency_order (load : String → Except String String) (keyList : List String)
    (hload : ∀ key ∈ keyList, ∃ v, load key = .ok v) :
    ∃ vs k, GetAll (New load) keyList = some (vs, k) ∧
      order k = (mostRecentFirst keyList).take CacheSize ∧
      keyList.map load = vs.map Except.ok ∧
      (∀ e ∈ k.list, ∃ p, e.Value = .ofPage p ∧ load p.Key = .ok p.Value) ∧
      ∀ key ∈ order k, ∃ e v, mapGet k.cache key = some (some e) ∧
        e.Value = .ofPage ⟨key, v⟩ ∧ load key = .ok v := by
  obtain ⟨vs, k, hrun, h, horder, hvals⟩ := getAll_new keyList hload
  exact ⟨vs, k, hrun, horder, hvals, h.loaded, fun key hkey => h.entry hkey⟩

theorem recency_order_witness :
    mostRecentFirst ["a", "b", "a", "c"] = ["c", "a", "b"] ∧
      ∃ vs k, GetAll (New echoLoad) ["a", "b", "a", "c"] = some (vs, k) ∧
        order k = (mostRecentFirst ["a", "b", "a", "c"]).take CacheSize ∧
        ["a", "b", "a", "c"].map echoLoad = vs.map Except.ok ∧
        (∀ e ∈ k.list, ∃ p, e.Value = .ofPage p ∧ echoLoad p.Key = .ok p.Value) ∧
        ∀ key ∈ order k, ∃ e v, mapGet k.cache key = some (some e) ∧
          e.Value = .ofPage ⟨key, v⟩ ∧ echoLoad key = .ok v :=
  ⟨by decide, recency_order echoLoad ["a", "b", "a", "c"] (fun key _ => echoLoad_ok key)⟩

/-- C15 fails on the code: `Get("a")` on a new cache calls the loader between its
receive from `pages` and its send, and while the goroutine of `Get("a")` is in the
loader the goroutine of `Get("b")`, a call on another key, cannot move: it waits at
its receive. -/
theorem loader_outside_counterexample :
    (Get.traced (New echoLoad) "a").2 = [.receive, .load "a", .send] ∧
      ((World.start (New echoLoad) ["a", "b"]).run [0]).callers =
        [.loading "a", .ready "b"] ∧
      ((World.start (New echoLoad) ["a", "b"]).run [0]).cache.pages = false ∧
      ((World.start (New echoLoad) ["a", "b"]).run [0]).step 1 = none :=
  ⟨rfl, rfl, rfl, rfl⟩

/-- C15, amended: `Get` calls the loader inside the exclusive region that guards the
index and the recency order, after its receive from `pages` and before its send; for
any goroutines calling `Get` on a cache and any schedule, while one of them is in the
loader the channel is empty and every goroutine that has not yet received, whatever
its key, is blocked. -/
theorem loader_holds_list (k : KeyStoreCache) (keyList : List String) (sched : List Nat) :
    (∀ key, Event.load key ∈ (Get.traced k key).2 →
        (Get.traced k key).2 = [.receive, .load key] ∨
          (Get.traced k key).2 = [.receive, .load key, .send]) ∧
      ∀ (i j : Nat) (key1 key2 : String),
        ((World.start k keyList).run sched).callers[i]? = some (Caller.loading key1) →
        ((World.start k keyList).run sched).callers[j]? = some (Caller.ready key2) →
        ((World.start k keyList).run sched).cache.pages = false ∧
          ((World.start k keyList).run sched).step j = none := by
  refine ⟨?_, ?_⟩
  · intro key hmem
    rcases traced_cases k key with ⟨-, hb⟩ | ⟨-, err, k2, -, -, hev⟩ | ⟨-, err, k2, -, -, hev⟩ |
      ⟨-, w, k2, -, -, hev⟩
    · rw [hb] at hmem; simp at hmem
    · rcases hev with hev | hev
      · rw [hev] at hmem; simp at hmem
      · exact Or.inl hev
    · rw [hev] at hmem; simp at hmem
    · rcases hev with hev | hev
      · rw [hev] at hmem; simp at hmem
      · exact Or.inr hev
  · intro i j key1 key2 hi hj
    have hex := exclusive_run sched _ (exclusive_start k keyList)
    have hpos : 1 ≤ ((World.start k keyList).run sched).callers.countP Caller.isLoading :=
      List.countP_pos_iff.2 ⟨_, List.getElem?_mem hi, rfl⟩
    exact ⟨hex.2 hpos, step_ready_blocked hj (hex.2 hpos)⟩

theorem loader_holds_list_witness :
    Event.load "a" ∈ (Get.traced (New echoLoad) "a").2 ∧
      ((World.start (New echoLoad) ["a", "b"]).run [0]).callers[0]? = some (Caller.loading "a") ∧
      ((World.start (New echoLoad) ["a", "b"]).run [0]).callers[1]? = some (Caller.ready "b") ∧
      ((Get.traced (New echoLoad) "a").2 = [.receive, .load "a"] ∨
        (Get.traced (New echoLoad) "a").2 = [.receive, .load "a", .send]) ∧
      ((World.start (New echoLoad) ["a", "b"]).run [0]).cache.pages = false ∧
      ((World.start (New echoLoad) ["a", "b"]).run [0]).step 1 = none :=
  ⟨by decide, rfl, rfl,
    (loader_holds_list (New echoLoad) ["a", "b"] [0]).1 "a" (by decide),
    (loader_holds_list (New echoLoad) ["a", "b"] [0]).2 0 1 "a" "b" rfl rfl⟩

/-- C14 fails on the code: when two goroutines call `Get("x")` on a new cache and the
load of "x" panics, the loader is called once and the goroutine that called it gets
the panic, but the list is not sent back: the other goroutine stays before its
receive, no goroutine can move any more, and it never gets the failure. -/
theorem shared_failure_counterexample :
    failX "x" = .error "no x" ∧ mapGet (New failX).cache "x" = none ∧
      ((World.start (New failX) ["x", "x"]).run [0, 0]).callers =
        [.panicked "no x", .ready "x"] ∧
      ((World.start (New failX) ["x", "x"]).run [0, 0]).loads = ["x"] ∧
      ∀ i, ((World.start (New failX) ["x", "x"]).run [0, 0]).step i = none :=
  ⟨rfl, rfl, rfl, rfl, fun i =>
    match i with
    | 0 => rfl
    | 1 => rfl
    | _ + 2 => rfl⟩

/-- C14, amended: when `n` goroutines call `Get(key)` on a reachable cache whose index
does not have the key, then under every schedule the loader is called at most once,
with the key; and when the loader answers the key, a goroutine that has returned has
the loader's value, the goroutines can move until all `n` have returned that value
(the loader then has been called exactly once), and some schedule gets them there. -/
theorem single_flight (load : String → Except String String) (k : KeyStoreCache)
    (key : String) (n : Nat) (sched : List Nat) (hr : Reachable load k)
    (habsent : mapGet k.cache key = none) :
    (((World.start k (List.replicate n key)).run sched).loads = [] ∨
        ((World.start k (List.replicate n key)).run sched).loads = [key]) ∧
      ∀ v, load key = .ok v →
        (∀ c ∈ ((World.start k (List.replicate n key)).run sched).callers,
            c = Caller.ready key ∨ c = Caller.loading key ∨ c = Caller.returned v) ∧
          ((∀ i, ((World.start k (List.replicate n key)).run sched).step i = none) →
            ((World.start k (List.replicate n key)).run sched).callers =
                List.replicate n (Caller.returned v) ∧
              (0 < n → ((World.start k (List.replicate n key)).run sched).loads = [key])) ∧
          ∃ sched1, ((World.start k (List.replicate n key)).run sched1).callers =
            List.replicate n (Caller.returned v) := by
  have h := hr.inv
  have hkey := h.mapGet_none_iff.1 habsent
  have hstart : (World.start k (List.replicate n key)).Flight load key :=
    flight_start h hkey n
  have hlen : ∀ s : List Nat,
      ((World.start k (List.replicate n key)).run s).callers.length = n := by
    intro s
    rw [run_length]
    simp [World.start]
  have hf := flight_run sched _ hstart
  refine ⟨?_, ?_⟩
  · rcases hf with ⟨-, -, hl, -⟩ | ⟨-, -, -, hl, -⟩ | ⟨v, -, -, -, hl, -⟩ | ⟨err, -, -, hl, -⟩
    · exact Or.inl hl
    · exact Or.inr hl
    · exact Or.inr hl
    · exact Or.inr hl
  · intro v hok
    refine ⟨?_, ?_, ?_⟩
    · intro c hc
      rcases hf with ⟨-, -, -, hall⟩ | ⟨-, -, -, -, -, hall⟩ | ⟨v1, hok1, -, -, -, hall⟩ |
        ⟨err, herr, -⟩
      · exact Or.inl (hall c hc)
      · rcases hall c hc with h1 | h1
        · exact Or.inl h1
        · exact Or.inr (Or.inl h1)
      · have hv : v1 = v := by rw [hok] at hok1; cases hok1; rfl
        rcases hall c hc with h1 | h1
        · exact Or.inl h1
        · exact Or.inr (Or.inr (hv ▸ h1))
      · rw [hok] at herr; cases herr
    · intro hstuck
      have hall := flight_stuck hf hok hstuck
      refine ⟨List.eq_replicate_iff.2 ⟨hlen sched, hall⟩, ?_⟩
      intro hn
      rcases hf with ⟨-, -, -, hready⟩ | ⟨-, -, -, hl, -⟩ | ⟨v1, -, -, -, hl, -⟩ |
        ⟨err, -, -, hl, -⟩
      · have hne : ((World.start k (List.replicate n key)).run sched).callers ≠ [] := by
          intro hnil
          have := hlen sched
          rw [hnil] at this
          simp at this
          omega
        obtain ⟨c, hc⟩ := List.exists_mem_of_ne_nil _ hne
        have h1 := hready c hc
        have h2 := hall c hc
        rw [h1] at h2
        cases h2
      · exact hl
      · exact hl
      · exact hl
    · obtain ⟨sched1, hstuck⟩ := exists_stuck _ (World.start k (List.replicate n key))
        (Nat.le_refl _)
      have hf1 := flight_run sched1 _ hstart
      exact ⟨sched1, List.eq_replicate_iff.2
        ⟨hlen sched1, flight_stuck hf1 hok hstuck⟩⟩

theorem single_flight_witness :
    Reachable echoLoad (New echoLoad) ∧ mapGet (New echoLoad).cache "a" = none ∧
      echoLoad "a" = .ok "value of a" ∧
      ((World.start (New echoLoad) (List.replicate 3 "a")).run [1, 0, 1, 2, 0]).callers =
        List.replicate 3 (Caller.returned "value of a") ∧
      (((World.start (New echoLoad) (List.replicate 3 "a")).run [1, 0, 1, 2, 0]).loads = [] ∨
        ((World.start (New echoLoad) (List.replicate 3 "a")).run [1, 0, 1, 2, 0]).loads =
          ["a"]) ∧
      ∀ c ∈ ((World.start (New echoLoad) (List.replicate 3 "a")).run [1, 0, 1, 2, 0]).callers,
        c = Caller.ready "a" ∨ c = Caller.loading "a" ∨ c = Caller.returned "value of a" :=
  ⟨Reachable.new, rfl, rfl, rfl,
    (single_flight echoLoad (New echoLoad) "a" 3 [1, 0, 1, 2, 0] Reachable.new rfl).1,
    ((single_flight echoLoad (New echoLoad) "a" 3 [1, 0, 1, 2, 0] Reachable.new rfl).2
      "value of a" rfl).1⟩

end KeyStore
